import Mathlib

/-!
Shallow embedding of `logint.py`, a tool that interleaves lines from multiple
log files by timestamp, together with proofs about its specification.

The embedding is split into three parts, mirroring the source file:

* the merge engine (`lines = [...]`, `lines.sort(reverse=True)`, the
  `while lines:` loop with its fast-path inner `while newline:` loop,
  source lines 199-212, plus `get_input_line`, lines 95-105);
* the pattern validator (source lines 175-188);
* the timestamp resolver `datetime_from_match` (source lines 35-93) with the
  month-name lookup `month_from_str` (source lines 19-33).

Machine details that the Python runtime supplies are embedded explicitly:
Python compares the `(datetime, line, inp_id)` tuples lexicographically, with
strings compared by code point, so the merge engine works over an abstract
linearly ordered instant type `T` and an explicit lexicographic comparison.
-/

/-! ## Python string comparison

Python compares strings lexicographically by code point.  The built-in
`String` order of Lean does not reduce in the kernel, so the comparison is
defined directly on the character lists. -/

/-- Lexicographic code-point comparison of character lists; this is exactly
how Python compares two strings. -/
def charsLtB : List Char → List Char → Bool
  | [], [] => false
  | [], _ :: _ => true
  | _ :: _, [] => false
  | a :: as, b :: bs => if a < b then true else if a = b then charsLtB as bs else false

theorem charsLtB_irrefl : ∀ l : List Char, charsLtB l l = false
  | [] => rfl
  | a :: as => by simp [charsLtB, charsLtB_irrefl as]

theorem charsLtB_trans : ∀ {a b c : List Char},
    charsLtB a b = true → charsLtB b c = true → charsLtB a c = true
  | [], [], _, h1, _ => by simp [charsLtB] at h1
  | [], _ :: _, [], _, h2 => by simp [charsLtB] at h2
  | [], _ :: _, _ :: _, _, _ => by simp [charsLtB]
  | _ :: _, [], _, h1, _ => by simp [charsLtB] at h1
  | _ :: _, _ :: _, [], _, h2 => by simp [charsLtB] at h2
  | a :: as, b :: bs, c :: cs, h1, h2 => by
    simp only [charsLtB] at h1 h2 ⊢
    by_cases hab : a < b
    · by_cases hbc : b < c
      · simp [lt_trans hab hbc]
      · simp only [if_neg hbc] at h2
        by_cases hbc2 : b = c
        · subst hbc2; simp [hab]
        · simp [hbc2] at h2
    · simp only [if_neg hab] at h1
      by_cases hab2 : a = b
      · subst hab2
        by_cases hbc : a < c
        · simp [hbc]
        · simp only [if_neg hbc] at h2 ⊢
          by_cases hbc2 : a = c
          · subst hbc2
            simp only [if_pos rfl] at h1 h2 ⊢
            exact charsLtB_trans h1 h2
          · simp [hbc2] at h2
      · simp [hab2] at h1

theorem charsLtB_eq_of_not : ∀ {a b : List Char},
    charsLtB a b = false → charsLtB b a = false → a = b
  | [], [], _, _ => rfl
  | [], _ :: _, h1, _ => by simp [charsLtB] at h1
  | _ :: _, [], _, h2 => by simp [charsLtB] at h2
  | a :: as, b :: bs, h1, h2 => by
    simp only [charsLtB] at h1 h2
    by_cases hab : a < b
    · simp [hab] at h1
    · by_cases hba : b < a
      · simp [hba] at h2
      · have hab2 : a = b := le_antisymm (not_lt.mp hba) (not_lt.mp hab)
        subst hab2
        simp only [if_neg hab, if_pos rfl] at h1 h2
        exact congrArg (a :: ·) (charsLtB_eq_of_not h1 h2)

theorem charsLtB_asymm {a b : List Char} (h : charsLtB a b = true) :
    charsLtB b a = false := by
  by_contra hc
  have hba : charsLtB b a = true := by
    cases h2 : charsLtB b a
    · exact absurd h2 hc
    · rfl
  have := charsLtB_trans h hba
  rw [charsLtB_irrefl] at this
  exact Bool.noConfusion this

/-- Python string comparison `a < b`, lifted to `String`. -/
def strLt (a b : String) : Prop := charsLtB a.data b.data = true

instance (a b : String) : Decidable (strLt a b) := by
  unfold strLt; exact inferInstance

theorem String.eq_of_data_eq {a b : String} (h : a.data = b.data) : a = b := by
  cases a; cases b; exact congrArg String.mk (by simpa using h)

/-! ## Pending lines and their ordering

`get_input_line` (source lines 95-105) returns the tuple
`(datetime_from_match(match, ...), line, inp_id)`.  Such a tuple is a pending
line; Python orders these tuples lexicographically: first by the resolved
instant, then by the raw line text (by code point), then by the source
index. -/

/-- A pending line: the Python tuple `(instant, raw line, source index)`
produced by `get_input_line`.  The instant type `T` is abstract: any linearly
ordered type of resolved instants. -/
structure Entry (T : Type) where
  ts : T
  line : String
  src : Nat
deriving DecidableEq, Repr

variable {T : Type} [LinearOrder T]

/-- Python tuple comparison `(ts, line, src) <= (ts', line', src')`:
lexicographic in the three components field by field. -/
def entLe (a b : Entry T) : Prop :=
  a.ts < b.ts ∨ a.ts = b.ts ∧ (strLt a.line b.line ∨ a.line = b.line ∧ a.src ≤ b.src)

instance entLe_dec (a b : Entry T) : Decidable (entLe a b) := by
  unfold entLe; exact inferInstance

theorem entLe_refl (a : Entry T) : entLe a a :=
  Or.inr ⟨rfl, Or.inr ⟨rfl, le_refl _⟩⟩

theorem entLe_ts {a b : Entry T} (h : entLe a b) : a.ts ≤ b.ts := by
  rcases h with h | ⟨h, _⟩
  · exact le_of_lt h
  · exact le_of_eq h

theorem strLt_trans {a b c : String} (h1 : strLt a b) (h2 : strLt b c) : strLt a c :=
  charsLtB_trans h1 h2

theorem entLe_trans {a b c : Entry T} (h1 : entLe a b) (h2 : entLe b c) : entLe a c := by
  rcases h1 with h1 | ⟨h1, h1'⟩
  · rcases h2 with h2 | ⟨h2, _⟩
    · exact Or.inl (lt_trans h1 h2)
    · exact Or.inl (h2 ▸ h1)
  · rcases h2 with h2 | ⟨h2, h2'⟩
    · exact Or.inl (h1 ▸ h2)
    · refine Or.inr ⟨h1.trans h2, ?_⟩
      rcases h1' with h1' | ⟨h1', h1''⟩
      · rcases h2' with h2' | ⟨h2', _⟩
        · exact Or.inl (strLt_trans h1' h2')
        · exact Or.inl (h2' ▸ h1')
      · rcases h2' with h2' | ⟨h2', h2''⟩
        · exact Or.inl (h1' ▸ h2')
        · exact Or.inr ⟨h1'.trans h2', le_trans h1'' h2''⟩

theorem strLt_total (a b : String) : strLt a b ∨ strLt b a ∨ a = b := by
  cases h1 : charsLtB a.data b.data
  · cases h2 : charsLtB b.data a.data
    · exact Or.inr (Or.inr (String.eq_of_data_eq (charsLtB_eq_of_not h1 h2)))
    · exact Or.inr (Or.inl h2)
  · exact Or.inl h1

theorem entLe_total (a b : Entry T) : entLe a b ∨ entLe b a := by
  rcases lt_trichotomy a.ts b.ts with h | h | h
  · exact Or.inl (Or.inl h)
  · rcases strLt_total a.line b.line with h' | h' | h'
    · exact Or.inl (Or.inr ⟨h, Or.inl h'⟩)
    · exact Or.inr (Or.inr ⟨h.symm, Or.inl h'⟩)
    · rcases Nat.le_total a.src b.src with h'' | h''
      · exact Or.inl (Or.inr ⟨h, Or.inr ⟨h', h''⟩⟩)
      · exact Or.inr (Or.inr ⟨h.symm, Or.inr ⟨h'.symm, h''⟩⟩)
  · exact Or.inr (Or.inl h)

theorem strLt_irrefl (a : String) : ¬ strLt a a := by
  unfold strLt
  rw [charsLtB_irrefl]
  exact Bool.noConfusion

theorem strLt_asymm {a b : String} (h : strLt a b) : ¬ strLt b a := by
  intro h2
  exact strLt_irrefl a (strLt_trans h h2)

theorem entLe_antisymm {a b : Entry T} (h1 : entLe a b) (h2 : entLe b a) : a = b := by
  have hts : a.ts = b.ts := le_antisymm (entLe_ts h1) (entLe_ts h2)
  have h1' : strLt a.line b.line ∨ a.line = b.line ∧ a.src ≤ b.src := by
    rcases h1 with h1 | ⟨_, h1'⟩
    · rw [hts] at h1; exact absurd h1 (lt_irrefl _)
    · exact h1'
  have h2' : strLt b.line a.line ∨ b.line = a.line ∧ b.src ≤ a.src := by
    rcases h2 with h2 | ⟨_, h2'⟩
    · rw [hts] at h2; exact absurd h2 (lt_irrefl _)
    · exact h2'
  have hline : a.line = b.line := by
    rcases h1' with h1' | ⟨h1', _⟩
    · rcases h2' with h2' | ⟨h2', _⟩
      · exact absurd h2' (strLt_asymm h1')
      · exact h2'.symm
    · exact h1'
  have hsrc : a.src = b.src := by
    rcases h1' with h1' | ⟨_, h1''⟩
    · rw [hline] at h1'; exact absurd h1' (strLt_irrefl _)
    · rcases h2' with h2' | ⟨_, h2''⟩
      · rw [hline] at h2'; exact absurd h2' (strLt_irrefl _)
      · exact le_antisymm h1'' h2''
  obtain ⟨ta, la, sa⟩ := a
  obtain ⟨tb, lb, sb⟩ := b
  simp only [Entry.mk.injEq]
  exact ⟨hts, hline, hsrc⟩

/-- The reverse order used by `lines.sort(reverse=True)`: descending in the
Python tuple order. -/
def entGe (a b : Entry T) : Prop := entLe b a

instance entGe_dec : DecidableRel (@entGe T _) := fun a b => entLe_dec b a

instance : IsTotal (Entry T) entGe :=
  ⟨fun a b => show entLe b a ∨ entLe a b from (entLe_total a b).symm⟩

instance : IsTrans (Entry T) entGe := ⟨fun _ _ _ h1 h2 => entLe_trans h2 h1⟩

/-- Model of `lines.sort(reverse=True)` (source lines 201 and 209): sort the
frontier in descending tuple order. -/
def sortDesc (l : List (Entry T)) : List (Entry T) := List.insertionSort entGe l

theorem sortDesc_perm (l : List (Entry T)) : List.Perm (sortDesc l) l :=
  List.perm_insertionSort entGe l

theorem sortDesc_sorted (l : List (Entry T)) : List.Sorted entGe (sortDesc l) :=
  List.sorted_insertionSort entGe l

theorem sortDesc_of_sorted {l : List (Entry T)} (h : List.Sorted entGe l) :
    sortDesc l = l :=
  List.Sorted.insertionSort_eq h

theorem sortDesc_length (l : List (Entry T)) : (sortDesc l).length = l.length :=
  (sortDesc_perm l).length_eq

/-- In a descending-sorted frontier the last element (the one `lines.pop()`
removes) is minimal in the tuple order. -/
theorem sorted_getLast_le {l : List (Entry T)} (hs : List.Sorted entGe l)
    (h : l ≠ []) : ∀ x ∈ l, entLe (l.getLast h) x := by
  intro x hx
  have hdec := List.dropLast_append_getLast h
  rw [← hdec] at hs hx
  rcases List.mem_append.mp hx with hx | hx
  · have := (List.pairwise_append.mp hs).2.2 x hx (l.getLast h) (by simp)
    exact this
  · have : x = l.getLast h := by simpa using hx
    exact this ▸ entLe_refl _

/-! ## The merge engine

Source lines 199-212.  `get_input_line(i)` reads the next raw line of source
`i` and returns `(resolved instant, line, i)`, or `None` at end of stream
(lines 95-105).  Since the resolution of a given line by a given pattern is
deterministic, a source is embedded as the list of `(instant, line)` pairs
its lines resolve to, in file order; `get_input_line` is then "take the head".
`srcs.getD i []` is the not-yet-read remainder of source `i`. -/

/-- Condition of the fast-path check `if lines and newline[0] > lines[-1][0]`
(source line 207): the frontier is non-empty and the newly pulled instant is
strictly greater than the instant of the frontier's minimal element
(`lines[-1]`, the last element in descending order).  Note that the check
compares only the instants, not the whole tuples. -/
def fastInsert (fr : List (Entry T)) (t : T) : Bool :=
  match fr.getLast? with
  | some last => decide (last.ts < t)
  | none => false

/-- The inner `while newline:` loop (source lines 206-212) for source `i`
whose unread remainder is `rest`, with current frontier `fr`.  Returns
`(emitted entries, new remainder of source i, new frontier)`.  While the
fast-path check fails the pulled line is printed at once and the next line of
the same source is pulled; when the check succeeds the pulled line is
appended to the frontier, which is re-sorted (lines 208-209), and the loop
breaks; when the source is exhausted the loop ends with the frontier
untouched. -/
def innerLoop (i : Nat) : List (T × String) → List (Entry T) →
    List (Entry T) × List (T × String) × List (Entry T)
  | [], fr => ([], [], fr)
  | (t, l) :: rest, fr =>
    if fastInsert fr t then ([], rest, sortDesc (fr ++ [⟨t, l, i⟩]))
    else
      let r := innerLoop i rest fr
      (⟨t, l, i⟩ :: r.1, r.2.1, r.2.2)

theorem innerLoop_size (i : Nat) :
    ∀ (rest : List (T × String)) (fr : List (Entry T)),
    (innerLoop i rest fr).2.1.length + (innerLoop i rest fr).2.2.length ≤
      rest.length + fr.length
  | [], fr => by simp [innerLoop]
  | (t, l) :: rest, fr => by
    simp only [innerLoop]
    by_cases hf : fastInsert fr t
    · simp [hf, sortDesc_length]
      omega
    · have := innerLoop_size i rest fr
      simp [hf]
      omega

/-- Total number of unread lines across all sources. -/
def srcsSize (srcs : List (List (T × String))) : Nat := (srcs.map List.length).sum

theorem srcsSize_set :
    ∀ (srcs : List (List (T × String))) (i : Nat) (v : List (T × String)),
    i < srcs.length →
    srcsSize (srcs.set i v) + (srcs.getD i []).length = srcsSize srcs + v.length
  | [], i, v, h => by simp at h
  | s :: srcs, 0, v, _ => by
    simp [srcsSize]
    omega
  | s :: srcs, i + 1, v, h => by
    simp only [List.set, srcsSize, List.map_cons, List.sum_cons, List.getD_cons_succ]
    have := srcsSize_set srcs i v (by simpa using h)
    simp only [srcsSize] at this
    omega

/-- The outer `while lines:` loop (source lines 202-212).  `lines.pop()`
removes the last element of the descending-sorted frontier (the minimal
pending tuple), prints its line, and then runs the inner fast-path loop on
the source that produced it.  Emission of an entry models printing its
`line` field. -/
def mergeLoop (srcs : List (List (T × String))) (fr : List (Entry T)) : List (Entry T) :=
  match fr with
  | [] => []
  | f0 :: fr1 =>
    let outline := (f0 :: fr1).getLast (List.cons_ne_nil f0 fr1)
    let r := innerLoop outline.src (srcs.getD outline.src []) ((f0 :: fr1).dropLast)
    outline :: (r.1 ++ mergeLoop (srcs.set outline.src r.2.1) r.2.2)
termination_by srcsSize srcs + fr.length
decreasing_by
  by_cases h : ((f0 :: fr1).getLast (List.cons_ne_nil f0 fr1)).src < srcs.length
  · have h1 := srcsSize_set srcs ((f0 :: fr1).getLast (List.cons_ne_nil f0 fr1)).src
      (innerLoop ((f0 :: fr1).getLast (List.cons_ne_nil f0 fr1)).src
        (srcs.getD ((f0 :: fr1).getLast (List.cons_ne_nil f0 fr1)).src [])
        ((f0 :: fr1).dropLast)).2.1 h
    have h2 := innerLoop_size ((f0 :: fr1).getLast (List.cons_ne_nil f0 fr1)).src
      (srcs.getD ((f0 :: fr1).getLast (List.cons_ne_nil f0 fr1)).src [])
      ((f0 :: fr1).dropLast)
    simp only [List.length_dropLast, List.length_cons] at h2 ⊢
    omega
  · have hge : srcs.length ≤ ((f0 :: fr1).getLast (List.cons_ne_nil f0 fr1)).src :=
      le_of_not_lt h
    have h3 : srcs.getD ((f0 :: fr1).getLast (List.cons_ne_nil f0 fr1)).src [] = [] :=
      List.getD_eq_default _ _ hge
    rw [h3]
    simp only [innerLoop, List.set_eq_of_length_le hge]
    simp [List.length_dropLast]

/-- The always-resort variant of the merge loop, for the refinement claim:
instead of the fast path, after emitting the popped entry it pulls one line
from the emitting source, and, if the source is not exhausted, always appends
the pulled line to the frontier and re-sorts, then returns to the outer
pop-and-emit step. -/
def mergeLoopResort (srcs : List (List (T × String))) (fr : List (Entry T)) :
    List (Entry T) :=
  match fr with
  | [] => []
  | f0 :: fr1 =>
    let outline := (f0 :: fr1).getLast (List.cons_ne_nil f0 fr1)
    match hm : srcs.getD outline.src [] with
    | [] => outline :: mergeLoopResort srcs ((f0 :: fr1).dropLast)
    | (t, l) :: rest =>
      outline :: mergeLoopResort (srcs.set outline.src rest)
        (sortDesc ((f0 :: fr1).dropLast ++ [⟨t, l, outline.src⟩]))
termination_by srcsSize srcs + fr.length
decreasing_by
  · simp [List.length_dropLast]
  · have hlt : ((f0 :: fr1).getLast (List.cons_ne_nil f0 fr1)).src < srcs.length := by
      by_contra hc
      rw [List.getD_eq_default _ _ (le_of_not_lt hc)] at hm
      exact List.noConfusion hm
    have h1 := srcsSize_set srcs ((f0 :: fr1).getLast (List.cons_ne_nil f0 fr1)).src rest hlt
    rw [hm] at h1
    simp only [List.length_cons] at h1
    simp only [sortDesc_length, List.length_append, List.length_dropLast,
      List.length_cons, List.length_nil]
    omega

/-- One iteration of the outer merge loop as a step function, for stating
invariants that hold at every point of the loop: `none` when the frontier is
empty (the loop halts), otherwise the emitted entries of this iteration
together with the successor state `(sources, frontier)`. -/
def mergeStep (s : List (List (T × String)) × List (Entry T)) :
    Option (List (Entry T) × (List (List (T × String)) × List (Entry T))) :=
  match s.2 with
  | [] => none
  | f0 :: fr1 =>
    let outline := (f0 :: fr1).getLast (List.cons_ne_nil f0 fr1)
    let r := innerLoop outline.src (s.1.getD outline.src []) ((f0 :: fr1).dropLast)
    some (outline :: r.1, (s.1.set outline.src r.2.1, r.2.2))

/-- The recursive merge loop is the iteration of `mergeStep`. -/
theorem mergeLoop_eq_step (srcs : List (List (T × String))) (fr : List (Entry T)) :
    mergeLoop srcs fr = (match mergeStep (srcs, fr) with
      | none => []
      | some (out, s2) => out ++ mergeLoop s2.1 s2.2) := by
  match fr with
  | [] => simp [mergeLoop, mergeStep]
  | f0 :: fr1 => rw [mergeLoop]; simp [mergeStep]

/-- An entry as pulled from source `i`: `(instant, line, i)`. -/
def tagged (i : Nat) (s : List (T × String)) : List (Entry T) :=
  s.map fun q => ⟨q.1, q.2, i⟩

/-- All entries of all sources, tagging source number `j` of the list with
index `k + j`; the whole input is `allEntriesFrom 0 srcs`. -/
def allEntriesFrom (k : Nat) : List (List (T × String)) → List (Entry T)
  | [] => []
  | s :: rest => tagged k s ++ allEntriesFrom (k + 1) rest

/-- The initial pulls (source line 199): one `get_input_line` per source, in
index order, skipping sources that are exhausted at the first pull. -/
def initPullsFrom (k : Nat) : List (List (T × String)) → List (Entry T)
  | [] => []
  | [] :: rest => initPullsFrom (k + 1) rest
  | ((t, l) :: _) :: rest => ⟨t, l, k⟩ :: initPullsFrom (k + 1) rest

/-- The unread remainders after the initial pulls: each source minus its
first line. -/
def initSrcs (srcs : List (List (T × String))) : List (List (T × String)) :=
  srcs.map (List.drop 1)

/-- The initial frontier: the initial pulls, sorted descending
(source lines 199-201). -/
def initFrontier (srcs : List (List (T × String))) : List (Entry T) :=
  sortDesc (initPullsFrom 0 srcs)

/-- The complete merge of the program: initial pulls, initial sort, then the
outer loop.  Input: for each source, the `(resolved instant, raw line)` pairs
of its lines in file order.  Output: the emitted entries in emission order. -/
def logint_merge (srcs : List (List (T × String))) : List (Entry T) :=
  mergeLoop (initSrcs srcs) (initFrontier srcs)

/-- The lines actually printed to standard output, in order. -/
def logint_output (srcs : List (List (T × String))) : List String :=
  (logint_merge srcs).map Entry.line

/-- The complete merge with the always-resort variant of the loop. -/
def logint_mergeResort (srcs : List (List (T × String))) : List (Entry T) :=
  mergeLoopResort (initSrcs srcs) (initFrontier srcs)

/-- The printed output of the always-resort variant. -/
def logint_outputResort (srcs : List (List (T × String))) : List String :=
  (logint_mergeResort srcs).map Entry.line

/-! ## Characterization of the inner loop -/

/-- Characterization of one run of the inner fast-path loop: some leading
chunk `pre` of the source's remainder is emitted, and the run ends either
with the source exhausted and the frontier untouched, or by inserting the
next line into the frontier and re-sorting, in which case the fast-path
check held for that line. -/
theorem innerLoop_cases (i : Nat) :
    ∀ (rest : List (T × String)) (fr : List (Entry T)),
    ∃ pre rst, rest = pre ++ rst ∧ (innerLoop i rest fr).1 = tagged i pre ∧
      ((rst = [] ∧ (innerLoop i rest fr).2.1 = [] ∧ (innerLoop i rest fr).2.2 = fr) ∨
       (∃ t l, rst = (t, l) :: (innerLoop i rest fr).2.1 ∧
         (innerLoop i rest fr).2.2 = sortDesc (fr ++ [⟨t, l, i⟩]) ∧
         ∃ lastE, fr.getLast? = some lastE ∧ lastE.ts < t))
  | [], fr => ⟨[], [], rfl, rfl, Or.inl ⟨rfl, rfl, rfl⟩⟩
  | (t, l) :: rest, fr => by
    by_cases hf : fastInsert fr t
    · refine ⟨[], (t, l) :: rest, rfl, ?_, ?_⟩
      · simp [innerLoop, hf, tagged]
      · refine Or.inr ⟨t, l, ?_, ?_, ?_⟩
        · simp [innerLoop, hf]
        · simp [innerLoop, hf]
        · unfold fastInsert at hf
          match hl : fr.getLast? with
          | none => rw [hl] at hf; exact Bool.noConfusion hf
          | some lastE =>
            rw [hl] at hf
            exact ⟨lastE, rfl, of_decide_eq_true hf⟩
    · obtain ⟨pre, rst, hpre, hout, hcase⟩ := innerLoop_cases i rest fr
      refine ⟨(t, l) :: pre, rst, by simp [hpre], ?_, ?_⟩
      · simp only [innerLoop, hf, if_false, Bool.false_eq_true, tagged, List.map_cons]
        simpa [tagged] using hout
      · simpa [innerLoop, hf] using hcase

/-- Every entry emitted by the inner loop passed the fast-path check, so its
instant is at most the instant of the frontier's minimal element. -/
theorem innerLoop_out_le (i : Nat) :
    ∀ (rest : List (T × String)) (fr : List (Entry T)) (lastE : Entry T),
    fr.getLast? = some lastE →
    ∀ e ∈ (innerLoop i rest fr).1, e.ts ≤ lastE.ts
  | [], fr, lastE, _, e, he => by simp [innerLoop] at he
  | (t, l) :: rest, fr, lastE, hl, e, he => by
    by_cases hf : fastInsert fr t
    · simp [innerLoop, hf] at he
    · simp only [innerLoop, hf, if_false, Bool.false_eq_true, List.mem_cons] at he
      rcases he with he | he
      · have : ¬ lastE.ts < t := by
          unfold fastInsert at hf
          rw [hl] at hf
          simpa using hf
        rw [he]
        exact not_lt.mp this
      · exact innerLoop_out_le i rest fr lastE hl e he

theorem mcoe_cons {A : Type} (a : A) (l : List A) :
    ((a :: l : List A) : Multiset A) = {a} + (l : Multiset A) := by
  rw [Multiset.singleton_add, Multiset.cons_coe]

theorem mcoe_append {A : Type} (a b : List A) :
    ((a ++ b : List A) : Multiset A) = (a : Multiset A) + (b : Multiset A) :=
  (Multiset.coe_add a b).symm

theorem tagged_cons (i : Nat) (t : T) (l : String) (rest : List (T × String)) :
    tagged i ((t, l) :: rest) = (⟨t, l, i⟩ : Entry T) :: tagged i rest := rfl

theorem tagged_nil (i : Nat) : tagged i ([] : List (T × String)) = [] := rfl

/-- The inner loop conserves entries: the pulled-but-uninserted remainder,
the emitted entries, the new remainder and the new frontier partition the
old remainder and frontier. -/
theorem innerLoop_conserv (i : Nat) :
    ∀ (rest : List (T × String)) (fr : List (Entry T)),
    (↑(tagged i rest) : Multiset (Entry T)) + ↑fr =
      ↑(innerLoop i rest fr).1 + ↑(tagged i (innerLoop i rest fr).2.1) +
        ↑(innerLoop i rest fr).2.2
  | [], fr => by simp [innerLoop, tagged_nil]
  | (t, l) :: rest, fr => by
    by_cases hf : fastInsert fr t
    · have hs : (↑(sortDesc (fr ++ [(⟨t, l, i⟩ : Entry T)])) : Multiset (Entry T)) =
          ↑(fr ++ [(⟨t, l, i⟩ : Entry T)]) :=
        Multiset.coe_eq_coe.mpr (sortDesc_perm _)
      simp only [innerLoop, hf, if_true]
      rw [hs]
      simp only [tagged_cons, mcoe_cons, mcoe_append, Multiset.coe_nil]
      abel
    · have ih := innerLoop_conserv i rest fr
      simp only [innerLoop, hf, if_false, Bool.false_eq_true]
      simp only [tagged_cons, mcoe_cons, add_assoc]
      refine congrArg (fun x => ({(⟨t, l, i⟩ : Entry T)} : Multiset (Entry T)) + x) ?_
      rw [ih, add_assoc]

/-! ## Conservation for the outer loop -/

/-- Every source with unread lines has a pending entry in the frontier.
This holds after the initial pulls and at every outer-loop boundary, and it
is what makes the loop's `while lines:` condition a correct exhaustion
test. -/
def covered (srcs : List (List (T × String))) (fr : List (Entry T)) : Prop :=
  ∀ i, srcs.getD i [] ≠ [] → ∃ e ∈ fr, Entry.src e = i

theorem allEntriesFrom_eq_nil {srcs : List (List (T × String))}
    (h : ∀ i, srcs.getD i [] = []) : ∀ k, allEntriesFrom k srcs = ([] : List (Entry T)) := by
  induction srcs with
  | nil => intro k; rfl
  | cons s rest ih =>
    intro k
    have h0 : s = [] := h 0
    have hrest : ∀ i, rest.getD i [] = [] := fun i => h (i + 1)
    simp [allEntriesFrom, h0, tagged, ih hrest]

/-- Replacing source `i` by a shorter remainder: entry bookkeeping. -/
theorem allEntriesFrom_set (k : Nat) :
    ∀ (srcs : List (List (T × String))) (i : Nat) (v : List (T × String)),
    i < srcs.length →
    (↑(allEntriesFrom k (srcs.set i v)) : Multiset (Entry T)) +
        ↑(tagged (k + i) (srcs.getD i [])) =
      ↑(allEntriesFrom k srcs) + ↑(tagged (k + i) v)
  | [], i, v, h => by simp at h
  | s :: rest, 0, v, _ => by
    simp only [List.set, allEntriesFrom, List.getD_cons_zero, Nat.add_zero, mcoe_append]
    abel
  | s :: rest, i + 1, v, h => by
    have ih := allEntriesFrom_set (k + 1) rest i v (by simpa using h)
    have hk : k + (i + 1) = (k + 1) + i := by omega
    simp only [List.set, allEntriesFrom, List.getD_cons_succ, hk, mcoe_append]
    rw [add_assoc, ih, ← add_assoc]

theorem mem_sortDesc {e : Entry T} {l : List (Entry T)} : e ∈ sortDesc l ↔ e ∈ l :=
  (sortDesc_perm l).mem_iff

theorem getD_set_eq {A : Type} (l : List A) (i : Nat) (v d : A) (h : i < l.length) :
    (l.set i v).getD i d = v := by
  simp [List.getD, List.getElem?_set_self, h]

theorem getD_set_ne {A : Type} (l : List A) (i j : Nat) (v d : A) (h : i ≠ j) :
    (l.set i v).getD j d = l.getD j d := by
  simp [List.getD, List.getElem?_set_ne h]

theorem set_getD_eq_self {A : Type} :
    ∀ (l : List (List A)) (i : Nat), l.set i (l.getD i []) = l
  | [], _ => rfl
  | _ :: _, 0 => rfl
  | s :: rest, i + 1 => congrArg (s :: ·) (set_getD_eq_self rest i)

/-- Unfolding of one outer-loop iteration at a non-empty frontier. -/
theorem mergeLoop_cons (srcs : List (List (T × String))) (f0 : Entry T)
    (fr1 : List (Entry T)) (o : Entry T)
    (ho : (f0 :: fr1).getLast (List.cons_ne_nil f0 fr1) = o) :
    mergeLoop srcs (f0 :: fr1) =
      o :: ((innerLoop o.src (srcs.getD o.src []) ((f0 :: fr1).dropLast)).1 ++
        mergeLoop
          (srcs.set o.src (innerLoop o.src (srcs.getD o.src []) ((f0 :: fr1).dropLast)).2.1)
          (innerLoop o.src (srcs.getD o.src []) ((f0 :: fr1).dropLast)).2.2) := by
  subst ho
  rw [mergeLoop]

/-- One outer-loop iteration strictly decreases the number of lines not yet
emitted. -/
theorem merge_measure (srcs : List (List (T × String))) (i : Nat)
    (fr' : List (Entry T)) :
    srcsSize (srcs.set i (innerLoop i (srcs.getD i []) fr').2.1) +
      (innerLoop i (srcs.getD i []) fr').2.2.length <
      srcsSize srcs + fr'.length + 1 := by
  by_cases h : i < srcs.length
  · have h1 := srcsSize_set srcs i (innerLoop i (srcs.getD i []) fr').2.1 h
    have h2 := innerLoop_size i (srcs.getD i []) fr'
    omega
  · have hge : srcs.length ≤ i := le_of_not_lt h
    have h3 : srcs.getD i [] = [] := List.getD_eq_default _ _ hge
    rw [h3]
    simp only [innerLoop, List.set_eq_of_length_le hge]
    omega

theorem covered_nil_allEntries {srcs : List (List (T × String))}
    (hcov : covered srcs ([] : List (Entry T))) :
    allEntriesFrom 0 srcs = ([] : List (Entry T)) := by
  apply allEntriesFrom_eq_nil
  intro i
  by_contra hc
  obtain ⟨e, he, _⟩ := hcov i hc
  simp at he

/-- One outer-loop iteration preserves coverage of unread sources by the
frontier. -/
theorem covered_step (srcs : List (List (T × String))) (f0 : Entry T)
    (fr1 : List (Entry T)) (o : Entry T)
    (ho : (f0 :: fr1).getLast (List.cons_ne_nil f0 fr1) = o)
    (hcov : covered srcs (f0 :: fr1)) :
    covered (srcs.set o.src (innerLoop o.src (srcs.getD o.src []) ((f0 :: fr1).dropLast)).2.1)
      (innerLoop o.src (srcs.getD o.src []) ((f0 :: fr1).dropLast)).2.2 := by
  intro j hj
  obtain ⟨pre, rst, hsplit, hout, hcase⟩ :=
    innerLoop_cases o.src (srcs.getD o.src []) ((f0 :: fr1).dropLast)
  by_cases hji : j = o.src
  · subst hji
    rcases hcase with ⟨hrst, h21, h22⟩ | ⟨t, l, hrst, h22, _⟩
    · exfalso
      apply hj
      rw [h21]
      by_cases hlt : o.src < srcs.length
      · exact getD_set_eq srcs o.src [] [] hlt
      · rw [List.set_eq_of_length_le (le_of_not_lt hlt)]
        exact List.getD_eq_default _ _ (le_of_not_lt hlt)
    · refine ⟨⟨t, l, o.src⟩, ?_, rfl⟩
      rw [h22, mem_sortDesc]
      simp
  · have hsame : srcs.getD j [] ≠ [] := by
      rwa [getD_set_ne srcs o.src j _ [] (fun he => hji he.symm)] at hj
    obtain ⟨e, he, hesrc⟩ := hcov j hsame
    have hne : e ≠ o := by
      intro hcontra
      apply hji
      rw [← hesrc, hcontra]
    have hdec := List.dropLast_append_getLast (List.cons_ne_nil f0 fr1)
    rw [ho] at hdec
    have he2 : e ∈ (f0 :: fr1).dropLast := by
      rw [← hdec] at he
      rcases List.mem_append.mp he with h2 | h2
      · exact h2
      · exact absurd (by simpa using h2) hne
    rcases hcase with ⟨_, _, h22⟩ | ⟨t, l, _, h22, _⟩
    · refine ⟨e, ?_, hesrc⟩
      rw [h22]
      exact he2
    · refine ⟨e, ?_, hesrc⟩
      rw [h22, mem_sortDesc]
      exact List.mem_append.mpr (Or.inl he2)

/-- The merge loop emits exactly the pending and unread entries: run from any
covered state, its output is the multiset of the frontier plus all unread
lines. -/
theorem mergeLoop_conserv :
    ∀ (N : Nat) (srcs : List (List (T × String))) (fr : List (Entry T)),
    srcsSize srcs + fr.length ≤ N → covered srcs fr →
    (↑(mergeLoop srcs fr) : Multiset (Entry T)) = ↑fr + ↑(allEntriesFrom 0 srcs) := by
  intro N
  induction N with
  | zero =>
    intro srcs fr hm hcov
    match fr with
    | [] =>
      rw [covered_nil_allEntries hcov]
      simp [mergeLoop]
    | f0 :: fr1 => simp at hm
  | succ N ih =>
    intro srcs fr hm hcov
    match fr with
    | [] =>
      rw [covered_nil_allEntries hcov]
      simp [mergeLoop]
    | f0 :: fr1 =>
      have ho : (f0 :: fr1).getLast (List.cons_ne_nil f0 fr1) =
          (f0 :: fr1).getLast (List.cons_ne_nil f0 fr1) := rfl
      set o := (f0 :: fr1).getLast (List.cons_ne_nil f0 fr1) with hodef
      have hdec : (f0 :: fr1).dropLast ++ [o] = f0 :: fr1 :=
        List.dropLast_append_getLast (List.cons_ne_nil f0 fr1)
      have hmeas := merge_measure srcs o.src ((f0 :: fr1).dropLast)
      have hlen : ((f0 :: fr1).dropLast).length + 1 = (f0 :: fr1).length := by
        simp [List.length_dropLast]
      have hm2 : srcsSize
            (srcs.set o.src (innerLoop o.src (srcs.getD o.src []) ((f0 :: fr1).dropLast)).2.1) +
          (innerLoop o.src (srcs.getD o.src []) ((f0 :: fr1).dropLast)).2.2.length ≤ N := by
        omega
      have hcov2 := covered_step srcs f0 fr1 o rfl hcov
      have recEq := ih _ _ hm2 hcov2
      rw [mergeLoop_cons srcs f0 fr1 o rfl]
      rw [mcoe_cons, mcoe_append, recEq]
      have hfr : (↑(f0 :: fr1) : Multiset (Entry T)) =
          ↑((f0 :: fr1).dropLast) + {o} := by
        conv_lhs => rw [← hdec]
        rw [mcoe_append, mcoe_cons, Multiset.coe_nil, add_zero]
      rw [hfr]
      have hcons := innerLoop_conserv o.src (srcs.getD o.src []) ((f0 :: fr1).dropLast)
      by_cases hlt : o.src < srcs.length
      · have hset := allEntriesFrom_set 0 srcs o.src
          (innerLoop o.src (srcs.getD o.src []) ((f0 :: fr1).dropLast)).2.1 hlt
        simp only [Nat.zero_add] at hset
        suffices hfin :
            ({o} : Multiset (Entry T)) +
              (↑(innerLoop o.src (srcs.getD o.src []) ((f0 :: fr1).dropLast)).1 +
                (↑(innerLoop o.src (srcs.getD o.src []) ((f0 :: fr1).dropLast)).2.2 +
                  ↑(allEntriesFrom 0
                    (srcs.set o.src
                      (innerLoop o.src (srcs.getD o.src []) ((f0 :: fr1).dropLast)).2.1)))) +
              ↑(tagged o.src (srcs.getD o.src [])) =
            (↑((f0 :: fr1).dropLast) + {o} + ↑(allEntriesFrom 0 srcs)) +
              ↑(tagged o.src (srcs.getD o.src [])) by
          exact add_right_cancel hfin
        calc ({o} : Multiset (Entry T)) +
              (↑(innerLoop o.src (srcs.getD o.src []) ((f0 :: fr1).dropLast)).1 +
                (↑(innerLoop o.src (srcs.getD o.src []) ((f0 :: fr1).dropLast)).2.2 +
                  ↑(allEntriesFrom 0
                    (srcs.set o.src
                      (innerLoop o.src (srcs.getD o.src []) ((f0 :: fr1).dropLast)).2.1)))) +
              ↑(tagged o.src (srcs.getD o.src []))
            = ({o} + ↑(innerLoop o.src (srcs.getD o.src []) ((f0 :: fr1).dropLast)).1 +
                ↑(innerLoop o.src (srcs.getD o.src []) ((f0 :: fr1).dropLast)).2.2) +
              (↑(allEntriesFrom 0
                  (srcs.set o.src
                    (innerLoop o.src (srcs.getD o.src []) ((f0 :: fr1).dropLast)).2.1)) +
                ↑(tagged o.src (srcs.getD o.src []))) := by abel
          _ = ({o} + ↑(innerLoop o.src (srcs.getD o.src []) ((f0 :: fr1).dropLast)).1 +
                ↑(innerLoop o.src (srcs.getD o.src []) ((f0 :: fr1).dropLast)).2.2) +
              (↑(allEntriesFrom 0 srcs) +
                ↑(tagged o.src
                  (innerLoop o.src (srcs.getD o.src []) ((f0 :: fr1).dropLast)).2.1)) := by
              rw [hset]
          _ = ({o} : Multiset (Entry T)) +
              (↑(innerLoop o.src (srcs.getD o.src []) ((f0 :: fr1).dropLast)).1 +
                ↑(tagged o.src
                  (innerLoop o.src (srcs.getD o.src []) ((f0 :: fr1).dropLast)).2.1) +
                ↑(innerLoop o.src (srcs.getD o.src []) ((f0 :: fr1).dropLast)).2.2) +
              ↑(allEntriesFrom 0 srcs) := by abel
          _ = ({o} : Multiset (Entry T)) +
              (↑(tagged o.src (srcs.getD o.src [])) + ↑((f0 :: fr1).dropLast)) +
              ↑(allEntriesFrom 0 srcs) := by rw [hcons]
          _ = ↑((f0 :: fr1).dropLast) + {o} + ↑(allEntriesFrom 0 srcs) +
              ↑(tagged o.src (srcs.getD o.src [])) := by abel
      · have hout : srcs.getD o.src [] = [] :=
          List.getD_eq_default _ _ (le_of_not_lt hlt)
        rw [hout]
        simp only [innerLoop, List.set_eq_of_length_le (le_of_not_lt hlt)]
        simp only [Multiset.coe_nil]
        abel

theorem mergeLoop_nil (srcs : List (List (T × String))) :
    mergeLoop srcs [] = [] := by
  rw [mergeLoop]

/-! ## Initialization -/

/-- The initial pulls split the input: every source is its first line (if
any) plus its remainder. -/
theorem initSplit (k : Nat) :
    ∀ srcs : List (List (T × String)),
    (↑(allEntriesFrom k srcs) : Multiset (Entry T)) =
      ↑(initPullsFrom k srcs) + ↑(allEntriesFrom k (srcs.map (List.drop 1)))
  | [] => by simp [allEntriesFrom, initPullsFrom]
  | [] :: rest => by
    simp only [allEntriesFrom, initPullsFrom, List.map_cons, tagged_nil, List.drop,
      List.nil_append, mcoe_append]
    exact initSplit (k + 1) rest
  | ((t, l) :: s) :: rest => by
    have ih := initSplit (k + 1) rest
    simp only [allEntriesFrom, initPullsFrom, List.map_cons, List.drop, tagged_cons,
      mcoe_append, mcoe_cons]
    rw [ih]
    abel

theorem initPulls_covers (k : Nat) :
    ∀ (srcs : List (List (T × String))) (j : Nat),
    srcs.getD j [] ≠ [] → ∃ e ∈ initPullsFrom k srcs, Entry.src e = k + j
  | [], j, h => absurd (by simp [List.getD]) h
  | [] :: rest, 0, h => absurd rfl h
  | ((t, l) :: s) :: rest, 0, h => ⟨⟨t, l, k⟩, by simp [initPullsFrom], by simp⟩
  | s :: rest, j + 1, h => by
    have hr : rest.getD j [] ≠ [] := by simpa [List.getD_cons_succ] using h
    obtain ⟨e, he, hsrc⟩ := initPulls_covers (k + 1) rest j hr
    have hmem : e ∈ initPullsFrom k (s :: rest) := by
      match s with
      | [] => simpa [initPullsFrom] using he
      | (t2, l2) :: s2 => simp [initPullsFrom, he]
    exact ⟨e, hmem, by omega⟩

theorem getD_initSrcs (srcs : List (List (T × String))) (j : Nat) :
    (initSrcs srcs).getD j [] = (srcs.getD j []).drop 1 := by
  induction srcs generalizing j with
  | nil => simp [initSrcs, List.getD]
  | cons s rest ih =>
    match j with
    | 0 => rfl
    | j + 1 => simpa [initSrcs, List.getD_cons_succ] using ih j

theorem covered_init (srcs : List (List (T × String))) :
    covered (initSrcs srcs) (initFrontier srcs) := by
  intro j hj
  rw [getD_initSrcs] at hj
  have hne : srcs.getD j [] ≠ [] := by
    intro h
    rw [h] at hj
    exact hj rfl
  obtain ⟨e, he, hsrc⟩ := initPulls_covers 0 srcs j hne
  exact ⟨e, mem_sortDesc.mpr he, by simpa using hsrc⟩

/-- The merge emits exactly the input entries, each exactly once: the output
is a permutation of all lines of all sources (tagged with their instants and
source indices), with no hypotheses on the input at all. -/
theorem logint_merge_perm (srcs : List (List (T × String))) :
    List.Perm (logint_merge srcs) (allEntriesFrom 0 srcs) := by
  apply Multiset.coe_eq_coe.mp
  have h1 := mergeLoop_conserv (srcsSize (initSrcs srcs) + (initFrontier srcs).length)
    (initSrcs srcs) (initFrontier srcs) (le_refl _) (covered_init srcs)
  unfold logint_merge
  rw [h1]
  have h2 : (↑(initFrontier srcs) : Multiset (Entry T)) = ↑(initPullsFrom 0 srcs) :=
    Multiset.coe_eq_coe.mpr (sortDesc_perm _)
  rw [h2, initSplit 0 srcs]
  rfl

/-! ## Sortedness of the merged output -/

theorem chain_getD {R : T × String → T × String → Prop}
    {srcs : List (List (T × String))}
    (h : ∀ s ∈ srcs, List.Chain' R s) (i : Nat) :
    List.Chain' R (srcs.getD i []) := by
  by_cases hi : i < srcs.length
  · refine h _ ?_
    rw [List.getD_eq_getElem _ _ hi]
    exact List.getElem_mem hi
  · rw [List.getD_eq_default _ _ (le_of_not_lt hi)]
    exact List.chain'_nil

theorem chain_set {R : T × String → T × String → Prop}
    {srcs : List (List (T × String))}
    (h : ∀ s ∈ srcs, List.Chain' R s) {v : List (T × String)}
    (hv : List.Chain' R v) (i : Nat) :
    ∀ s ∈ srcs.set i v, List.Chain' R s := by
  intro s hs
  rcases List.mem_or_eq_of_mem_set hs with hs | hs
  · exact h s hs
  · exact hs ▸ hv

/-- Gluing an emitted minimum, a fast-path run and a recursive tail into a
sorted output. -/
theorem merge_sorted_assemble (srcs2 : List (List (T × String)))
    (fr2 : List (Entry T)) (o : Entry T) (outl : List (Entry T))
    (houtpw : outl.Pairwise (fun a b : Entry T => a.ts ≤ b.ts))
    (hoout : ∀ e ∈ outl, o.ts < e.ts)
    (K1 : (mergeLoop srcs2 fr2).Pairwise (fun a b : Entry T => a.ts ≤ b.ts))
    (K2 : ∀ x ∈ mergeLoop srcs2 fr2, o.ts ≤ x.ts)
    (K3 : ∀ e ∈ outl, ∀ x ∈ mergeLoop srcs2 fr2, e.ts ≤ x.ts) :
    (o :: (outl ++ mergeLoop srcs2 fr2)).Pairwise (fun a b : Entry T => a.ts ≤ b.ts) ∧
    (∀ x ∈ o :: (outl ++ mergeLoop srcs2 fr2), o.ts ≤ x.ts) := by
  constructor
  · rw [List.pairwise_cons]
    constructor
    · intro x hx
      rcases List.mem_append.mp hx with hx | hx
      · exact le_of_lt (hoout x hx)
      · exact K2 x hx
    · rw [List.pairwise_append]
      exact ⟨houtpw, K1, K3⟩
  · intro x hx
    rcases List.mem_cons.mp hx with hx | hx
    · rw [hx]
    · rcases List.mem_append.mp hx with hx | hx
      · exact le_of_lt (hoout x hx)
      · exact K2 x hx

/-- From any state whose frontier is sorted descending, whose unread sources
are strictly increasing in instant, and whose pending entries precede all
unread lines of their own sources, the merge loop emits instants in
non-decreasing order, all bounded below by the frontier's minimum. -/
theorem mergeLoop_sorted :
    ∀ (N : Nat) (srcs : List (List (T × String))) (fr : List (Entry T)),
    srcsSize srcs + fr.length ≤ N →
    List.Sorted entGe fr →
    (∀ s ∈ srcs, List.Chain' (fun a b : T × String => a.1 < b.1) s) →
    (∀ e ∈ fr, ∀ q ∈ srcs.getD e.src [], e.ts < q.1) →
    (mergeLoop srcs fr).Pairwise (fun a b : Entry T => a.ts ≤ b.ts) ∧
    (∀ lastE, fr.getLast? = some lastE → ∀ e ∈ mergeLoop srcs fr, lastE.ts ≤ e.ts) := by
  intro N
  induction N with
  | zero =>
    intro srcs fr hm _ _ _
    match fr with
    | [] => rw [mergeLoop_nil]; exact ⟨List.Pairwise.nil, by simp⟩
    | f0 :: fr1 => simp at hm
  | succ N ih =>
    intro srcs fr hm hs hc hl
    match fr with
    | [] => rw [mergeLoop_nil]; exact ⟨List.Pairwise.nil, by simp⟩
    | f0 :: fr1 =>
      set o := (f0 :: fr1).getLast (List.cons_ne_nil f0 fr1) with hodef
      have hdec : (f0 :: fr1).dropLast ++ [o] = f0 :: fr1 :=
        List.dropLast_append_getLast (List.cons_ne_nil f0 fr1)
      have homem : o ∈ f0 :: fr1 := List.getLast_mem _
      have hsort' : List.Sorted entGe ((f0 :: fr1).dropLast) :=
        hs.sublist (List.dropLast_sublist _)
      have hmin : ∀ x ∈ f0 :: fr1, entLe o x :=
        sorted_getLast_le hs (List.cons_ne_nil f0 fr1)
      have hmin' : ∀ x ∈ (f0 :: fr1).dropLast, entLe o x := by
        intro x hx
        refine hmin x ?_
        rw [← hdec]
        exact List.mem_append.mpr (Or.inl hx)
      obtain ⟨pre, rst, hsplit, hout, hcase⟩ :=
        innerLoop_cases o.src (srcs.getD o.src []) ((f0 :: fr1).dropLast)
      set p := innerLoop o.src (srcs.getD o.src []) ((f0 :: fr1).dropLast) with hpdef
      have hchain : List.Chain' (fun a b : T × String => a.1 < b.1) (srcs.getD o.src []) :=
        chain_getD hc o.src
      haveI : IsTrans (T × String) (fun a b : T × String => a.1 < b.1) :=
        ⟨fun _ _ _ h1 h2 => lt_trans h1 h2⟩
      have hpw : (srcs.getD o.src []).Pairwise (fun a b : T × String => a.1 < b.1) :=
        List.chain'_iff_pairwise.mp hchain
      have holt : ∀ q ∈ srcs.getD o.src [], o.ts < q.1 := hl o homem
      have houtmem : ∀ e ∈ p.1, ∃ q ∈ srcs.getD o.src [],
          e = (⟨q.1, q.2, o.src⟩ : Entry T) := by
        intro e he
        rw [hout] at he
        unfold tagged at he
        obtain ⟨q, hq, hqe⟩ := List.mem_map.mp he
        refine ⟨q, ?_, hqe.symm⟩
        rw [hsplit]
        exact List.mem_append.mpr (Or.inl hq)
      have hoout : ∀ e ∈ p.1, o.ts < e.ts := by
        intro e he
        obtain ⟨q, hq, hqe⟩ := houtmem e he
        rw [hqe]
        exact holt q hq
      have houtpw : p.1.Pairwise (fun a b : Entry T => a.ts ≤ b.ts) := by
        rw [hout]
        unfold tagged
        rw [List.pairwise_map]
        have hpw2 := hpw
        rw [hsplit] at hpw2
        exact (hpw2.sublist (List.sublist_append_left pre rst)).imp le_of_lt
      have hdll : ((f0 :: fr1).dropLast).length = fr1.length := by simp
      have hmeas := merge_measure srcs o.src ((f0 :: fr1).dropLast)
      rw [← hpdef] at hmeas
      have hm2 : srcsSize (srcs.set o.src p.2.1) + p.2.2.length ≤ N := by
        simp only [List.length_cons] at hm
        omega
      suffices hS :
          (o :: (p.1 ++ mergeLoop (srcs.set o.src p.2.1) p.2.2)).Pairwise
            (fun a b : Entry T => a.ts ≤ b.ts) ∧
          (∀ x ∈ o :: (p.1 ++ mergeLoop (srcs.set o.src p.2.1) p.2.2), o.ts ≤ x.ts) by
        rw [mergeLoop_cons srcs f0 fr1 o hodef.symm, ← hpdef]
        refine ⟨hS.1, ?_⟩
        intro lastE hlastE x hx
        have heq : lastE = o := by
          rw [List.getLast?_eq_getLast_of_ne_nil (List.cons_ne_nil f0 fr1)] at hlastE
          exact (Option.some.injEq _ _ ▸ hlastE :).symm
        rw [heq]
        exact hS.2 x hx
      rcases hcase with ⟨hrst, h21, h22⟩ | ⟨t, l2, hrst, h22, lastE', hlast', hltE⟩
      · -- the source was exhausted; the frontier is unchanged
        have hlinks : ∀ e ∈ (f0 :: fr1).dropLast,
            ∀ q ∈ (srcs.set o.src p.2.1).getD e.src [], e.ts < q.1 := by
          intro e he q hq
          have hef : e ∈ f0 :: fr1 := by
            rw [← hdec]
            exact List.mem_append.mpr (Or.inl he)
          by_cases hes : e.src = o.src
          · exfalso
            rw [h21, hes] at hq
            by_cases hlt2 : o.src < srcs.length
            · rw [getD_set_eq _ _ _ _ hlt2] at hq
              simp at hq
            · rw [List.set_eq_of_length_le (le_of_not_lt hlt2),
                List.getD_eq_default _ _ (le_of_not_lt hlt2)] at hq
              simp at hq
          · rw [getD_set_ne _ _ _ _ _ (fun hh => hes hh.symm)] at hq
            exact hl e hef q hq
        have hchain2 : ∀ s ∈ srcs.set o.src p.2.1,
            List.Chain' (fun a b : T × String => a.1 < b.1) s := by
          rw [h21]
          exact chain_set hc List.chain'_nil o.src
        rw [h22] at hm2
        obtain ⟨K1, hrecbd⟩ := ih (srcs.set o.src p.2.1) ((f0 :: fr1).dropLast)
          hm2 hsort' hchain2 hlinks
        by_cases hfr' : (f0 :: fr1).dropLast = []
        · rw [h22, hfr']
          refine merge_sorted_assemble _ [] o p.1 houtpw hoout ?_ ?_ ?_
          · rw [mergeLoop_nil]
            exact List.Pairwise.nil
          · rw [mergeLoop_nil]
            intro x hx
            simp at hx
          · rw [mergeLoop_nil]
            intro e he x hx
            simp at hx
        · have hlastq := List.getLast?_eq_getLast_of_ne_nil hfr'
          have hoLast : o.ts ≤ (((f0 :: fr1).dropLast).getLast hfr').ts :=
            entLe_ts (hmin' _ (List.getLast_mem hfr'))
          have K2 : ∀ x ∈ mergeLoop (srcs.set o.src p.2.1) p.2.2, o.ts ≤ x.ts := by
            intro x hx
            rw [h22] at hx
            exact le_trans hoLast (hrecbd _ hlastq x hx)
          have K3 : ∀ e ∈ p.1, ∀ x ∈ mergeLoop (srcs.set o.src p.2.1) p.2.2,
              e.ts ≤ x.ts := by
            intro e he x hx
            rw [h22] at hx
            have he2 : e.ts ≤ (((f0 :: fr1).dropLast).getLast hfr').ts :=
              innerLoop_out_le o.src (srcs.getD o.src []) _ _ hlastq e he
            exact le_trans he2 (hrecbd _ hlastq x hx)
          rw [h22]
          exact merge_sorted_assemble _ _ o p.1 houtpw hoout K1
            (by rw [← h22]; exact K2) (by rw [← h22]; exact K3)
      · -- a new line was inserted into the frontier
        have hfrne : (f0 :: fr1).dropLast ≠ [] := by
          intro hcq
          rw [hcq] at hlast'
          simp at hlast'
        have hlastval : ((f0 :: fr1).dropLast).getLast hfrne = lastE' := by
          rw [List.getLast?_eq_getLast_of_ne_nil hfrne] at hlast'
          exact Option.some.injEq _ _ ▸ hlast'
        have hrstpw : rst.Pairwise (fun a b : T × String => a.1 < b.1) := by
          have hpw2 := hpw
          rw [hsplit] at hpw2
          exact hpw2.sublist (List.sublist_append_right pre rst)
        have hrstpw2 := hrstpw
        rw [hrst] at hrstpw2
        have hheadlt : ∀ q ∈ p.2.1, t < q.1 :=
          (List.pairwise_cons.mp hrstpw2).1
        have hp21pw : p.2.1.Pairwise (fun a b : T × String => a.1 < b.1) :=
          (List.pairwise_cons.mp hrstpw2).2
        have hp21mem : ∀ q ∈ p.2.1, q ∈ srcs.getD o.src [] := by
          intro q hq
          rw [hsplit, hrst]
          exact List.mem_append.mpr (Or.inr (List.mem_cons.mpr (Or.inr hq)))
        have hchain2 : ∀ s ∈ srcs.set o.src p.2.1,
            List.Chain' (fun a b : T × String => a.1 < b.1) s :=
          chain_set hc (List.chain'_iff_pairwise.mpr hp21pw) o.src
        have hlinks : ∀ e ∈ p.2.2,
            ∀ q ∈ (srcs.set o.src p.2.1).getD e.src [], e.ts < q.1 := by
          intro e he q hq
          rw [h22, mem_sortDesc] at he
          by_cases hes : e.src = o.src
          · have hq2 : q ∈ p.2.1 := by
              by_cases hlt2 : o.src < srcs.length
              · rwa [hes, getD_set_eq _ _ _ _ hlt2] at hq
              · exfalso
                rw [hes, List.set_eq_of_length_le (le_of_not_lt hlt2),
                  List.getD_eq_default _ _ (le_of_not_lt hlt2)] at hq
                simp at hq
            rcases List.mem_append.mp he with he | he
            · exact hl e (by rw [← hdec]; exact List.mem_append.mpr (Or.inl he)) q
                (by rw [hes]; exact hp21mem q hq2)
            · have he2 : e = (⟨t, l2, o.src⟩ : Entry T) := by simpa using he
              rw [he2]
              exact hheadlt q hq2
          · rw [getD_set_ne _ _ _ _ _ (fun hh => hes hh.symm)] at hq
            rcases List.mem_append.mp he with he | he
            · exact hl e (by rw [← hdec]; exact List.mem_append.mpr (Or.inl he)) q hq
            · exfalso
              apply hes
              have he2 : e = (⟨t, l2, o.src⟩ : Entry T) := by simpa using he
              rw [he2]
        have hsort2 : List.Sorted entGe p.2.2 := by
          rw [h22]
          exact sortDesc_sorted _
        obtain ⟨K1, hrecbd⟩ := ih (srcs.set o.src p.2.1) p.2.2 hm2 hsort2 hchain2 hlinks
        have hne2 : p.2.2 ≠ [] := by
          intro hq
          have := sortDesc_length ((f0 :: fr1).dropLast ++ [(⟨t, l2, o.src⟩ : Entry T)])
          rw [← h22, hq] at this
          simp at this
        have hlast2q := List.getLast?_eq_getLast_of_ne_nil hne2
        have hlast2mem : p.2.2.getLast hne2 ∈
            (f0 :: fr1).dropLast ++ [(⟨t, l2, o.src⟩ : Entry T)] := by
          rw [← mem_sortDesc, ← h22]
          exact List.getLast_mem hne2
        have hlastbd : o.ts ≤ (p.2.2.getLast hne2).ts ∧
            lastE'.ts ≤ (p.2.2.getLast hne2).ts := by
          rcases List.mem_append.mp hlast2mem with hx | hx
          · constructor
            · exact entLe_ts (hmin' _ hx)
            · rw [← hlastval]
              exact entLe_ts (sorted_getLast_le hsort' hfrne _ hx)
          · have hx2 : p.2.2.getLast hne2 = (⟨t, l2, o.src⟩ : Entry T) := by
              simpa using hx
            rw [hx2]
            have hoE : o.ts ≤ lastE'.ts := by
              rw [← hlastval]
              exact entLe_ts (hmin' _ (List.getLast_mem hfrne))
            exact ⟨le_trans hoE (le_of_lt hltE), le_of_lt hltE⟩
        have K2 : ∀ x ∈ mergeLoop (srcs.set o.src p.2.1) p.2.2, o.ts ≤ x.ts := by
          intro x hx
          exact le_trans hlastbd.1 (hrecbd _ hlast2q x hx)
        have K3 : ∀ e ∈ p.1, ∀ x ∈ mergeLoop (srcs.set o.src p.2.1) p.2.2,
            e.ts ≤ x.ts := by
          intro e he x hx
          have he2 : e.ts ≤ lastE'.ts :=
            innerLoop_out_le o.src (srcs.getD o.src []) _ _ hlast' e he
          exact le_trans he2 (le_trans hlastbd.2 (hrecbd _ hlast2q x hx))
        exact merge_sorted_assemble _ _ o p.1 houtpw hoout K1 K2 K3

/-- Every initial pull is the head of its source. -/
theorem initPulls_head (k : Nat) :
    ∀ (srcs : List (List (T × String))) (e : Entry T),
    e ∈ initPullsFrom k srcs →
    k ≤ e.src ∧ ∃ s, srcs.getD (e.src - k) [] = (e.ts, e.line) :: s
  | [], e, h => by simp [initPullsFrom] at h
  | [] :: rest, e, h => by
    obtain ⟨hk, s, hs⟩ := initPulls_head (k + 1) rest e (by simpa [initPullsFrom] using h)
    refine ⟨by omega, s, ?_⟩
    have hsub : e.src - k = (e.src - (k + 1)) + 1 := by omega
    rw [hsub, List.getD_cons_succ]
    exact hs
  | ((t, l) :: s0) :: rest, e, h => by
    simp only [initPullsFrom, List.mem_cons] at h
    rcases h with h | h
    · subst h
      exact ⟨le_refl _, s0, by simp⟩
    · obtain ⟨hk, s, hs⟩ := initPulls_head (k + 1) rest e h
      refine ⟨by omega, s, ?_⟩
      have hsub : e.src - k = (e.src - (k + 1)) + 1 := by omega
      rw [hsub, List.getD_cons_succ]
      exact hs

/-- C1 helper: the initial state satisfies the linking invariant. -/
theorem init_links (srcs : List (List (T × String)))
    (hc : ∀ s ∈ srcs, List.Chain' (fun a b : T × String => a.1 < b.1) s) :
    ∀ e ∈ initFrontier srcs,
      ∀ q ∈ (initSrcs srcs).getD e.src [], e.ts < q.1 := by
  intro e he q hq
  unfold initFrontier at he
  rw [mem_sortDesc] at he
  obtain ⟨_, s, hs⟩ := initPulls_head 0 srcs e he
  simp only [Nat.sub_zero] at hs
  rw [getD_initSrcs, hs] at hq
  simp only [List.drop_one, List.tail_cons] at hq
  have hchain := chain_getD hc e.src
  rw [hs] at hchain
  haveI : IsTrans (T × String) (fun a b : T × String => a.1 < b.1) :=
    ⟨fun _ _ _ h1 h2 => lt_trans h1 h2⟩
  have hpw := List.chain'_iff_pairwise.mp hchain
  exact (List.pairwise_cons.mp hpw).1 q hq

/-- C1: For every set of sources whose per-source resolved instants are
strictly increasing, the merge loop emits every line of every source exactly
once (the emitted entries are a permutation of all input entries), in
globally non-decreasing order of resolved instant. -/
theorem merge_emits_each_line_once_in_nondecreasing_order
    {T : Type} [LinearOrder T] (srcs : List (List (T × String)))
    (hinc : ∀ s ∈ srcs, List.Chain' (fun a b : T × String => a.1 < b.1) s) :
    List.Perm (logint_merge srcs) (allEntriesFrom 0 srcs) ∧
    (logint_merge srcs).Pairwise (fun a b : Entry T => a.ts ≤ b.ts) := by
  refine ⟨logint_merge_perm srcs, ?_⟩
  have hchains : ∀ s ∈ initSrcs srcs,
      List.Chain' (fun a b : T × String => a.1 < b.1) s := by
    intro s hs
    obtain ⟨s0, hs0, hdrop⟩ := List.mem_map.mp hs
    rw [← hdrop, List.drop_one]
    exact (hinc s0 hs0).tail
  exact (mergeLoop_sorted (srcsSize (initSrcs srcs) + (initFrontier srcs).length)
    (initSrcs srcs) (initFrontier srcs) (le_refl _) (sortDesc_sorted _)
    hchains (init_links srcs hinc)).1

/-- Witness for C1 at a concrete input: two sources with interleaved
strictly increasing instants. -/
theorem merge_emits_each_line_once_in_nondecreasing_order_witness :
    (∀ s ∈ ([[(0, "x"), (2, "y")], [(1, "w")]] : List (List (Nat × String))),
      List.Chain' (fun a b : Nat × String => a.1 < b.1) s) ∧
    (List.Perm (logint_merge [[(0, "x"), (2, "y")], [(1, "w")]])
      (allEntriesFrom 0 [[(0, "x"), (2, "y")], [(1, "w")]]) ∧
    (logint_merge ([[(0, "x"), (2, "y")], [(1, "w")]] : List (List (Nat × String)))).Pairwise
      (fun a b => a.ts ≤ b.ts)) :=
  ⟨by norm_num [List.chain'_cons], merge_emits_each_line_once_in_nondecreasing_order _
    (by norm_num [List.chain'_cons])⟩

/-! ## Frontier invariants of the merge loop (claim C9) -/

/-- Reachability between merge states `(sources, frontier)` by iterating the
outer-loop step. -/
def Reach (a b : List (List (T × String)) × List (Entry T)) : Prop :=
  Relation.ReflTransGen (fun s s2 => ∃ out, mergeStep s = some (out, s2)) a b

/-- The state after the initial pulls and the initial sort. -/
def initState (srcs : List (List (T × String))) :
    List (List (T × String)) × List (Entry T) :=
  (initSrcs srcs, initFrontier srcs)

/-- Source `i` has signalled end-of-stream: `get_input_line(i)` has returned
`None`, which in a run of the program happens exactly when nothing of the
source remains unread and no pending line of it sits in the frontier. -/
def exhausted (s : List (List (T × String)) × List (Entry T)) (i : Nat) : Prop :=
  s.1.getD i [] = [] ∧ i ∉ s.2.map Entry.src

instance exhausted_dec (s : List (List (T × String)) × List (Entry T)) (i : Nat) :
    Decidable (exhausted s i) := by
  unfold exhausted
  exact inferInstance

/-- Structural frontier invariant: pending sources are pairwise distinct and
in range. -/
def frontierInv (s : List (List (T × String)) × List (Entry T)) : Prop :=
  (s.2.map Entry.src).Nodup ∧ ∀ e ∈ s.2, e.src < s.1.length

theorem initPulls_src_ge (k : Nat) :
    ∀ (srcs : List (List (T × String))) (e : Entry T),
    e ∈ initPullsFrom k srcs → k ≤ e.src :=
  fun srcs e h => (initPulls_head k srcs e h).1

theorem initPulls_src_nodup (k : Nat) :
    ∀ srcs : List (List (T × String)),
    ((initPullsFrom k srcs).map Entry.src).Nodup
  | [] => List.nodup_nil
  | [] :: rest => by
    simpa [initPullsFrom] using initPulls_src_nodup (k + 1) rest
  | ((t, l) :: s) :: rest => by
    simp only [initPullsFrom, List.map_cons, List.nodup_cons]
    refine ⟨?_, initPulls_src_nodup (k + 1) rest⟩
    intro hmem
    obtain ⟨e, he, hesrc⟩ := List.mem_map.mp hmem
    have := initPulls_src_ge (k + 1) rest e he
    omega

theorem frontierInv_init (srcs : List (List (T × String))) :
    frontierInv (initState srcs) := by
  constructor
  · have hperm : List.Perm ((initFrontier srcs).map Entry.src)
        ((initPullsFrom 0 srcs).map Entry.src) :=
      (sortDesc_perm (initPullsFrom 0 srcs)).map Entry.src
    exact hperm.nodup_iff.mpr (initPulls_src_nodup 0 srcs)
  · intro e he
    unfold initState initFrontier
    unfold initState initFrontier at he
    rw [mem_sortDesc] at he
    obtain ⟨_, s, hs⟩ := initPulls_head 0 srcs e he
    simp only [Nat.sub_zero] at hs
    simp only [initSrcs, List.length_map]
    by_contra hc
    rw [List.getD_eq_default _ _ (le_of_not_lt hc)] at hs
    exact List.noConfusion hs

/-- One step of the merge loop preserves the structural frontier
invariant. -/
theorem mergeStep_inv {s s2 : List (List (T × String)) × List (Entry T)}
    {out : List (Entry T)} (hstep : mergeStep s = some (out, s2))
    (h : frontierInv s) : frontierInv s2 := by
  obtain ⟨srcs, fr⟩ := s
  match fr with
  | [] => exact absurd hstep (by simp [mergeStep])
  | f0 :: fr1 =>
    simp only [mergeStep, Option.some.injEq, Prod.mk.injEq] at hstep
    obtain ⟨hA, hB⟩ := hstep
    set o := (f0 :: fr1).getLast (List.cons_ne_nil f0 fr1) with hodef
    have hdec : (f0 :: fr1).dropLast ++ [o] = f0 :: fr1 :=
      List.dropLast_append_getLast (List.cons_ne_nil f0 fr1)
    obtain ⟨pre, rst, hsplit, houtq, hcase⟩ :=
      innerLoop_cases o.src (srcs.getD o.src []) ((f0 :: fr1).dropLast)
    have hnd : ((f0 :: fr1).map Entry.src).Nodup := h.1
    have hnd' : (((f0 :: fr1).dropLast).map Entry.src).Nodup ∧
        o.src ∉ ((f0 :: fr1).dropLast).map Entry.src := by
      rw [← hdec, List.map_append, List.nodup_append] at hnd
      refine ⟨hnd.1, fun hmem => ?_⟩
      have := hnd.2.2 hmem
      simp at this
    have hbd : ∀ e ∈ (f0 :: fr1).dropLast, e.src < srcs.length := by
      intro e he
      refine h.2 e ?_
      rw [← hdec]
      exact List.mem_append.mpr (Or.inl he)
    have hobd : o.src < srcs.length := h.2 o (List.getLast_mem _)
    rw [← hB]
    constructor
    · rcases hcase with ⟨_, _, h22⟩ | ⟨t, l2, _, h22, _⟩
      · rw [h22]
        exact hnd'.1
      · rw [h22]
        have hperm : List.Perm
            ((sortDesc ((f0 :: fr1).dropLast ++
              [(⟨t, l2, o.src⟩ : Entry T)])).map Entry.src)
            ((((f0 :: fr1).dropLast ++
              [(⟨t, l2, o.src⟩ : Entry T)])).map Entry.src) :=
          (sortDesc_perm _).map Entry.src
        rw [hperm.nodup_iff, List.map_append, List.nodup_append]
        refine ⟨hnd'.1, by simp, ?_⟩
        intro a ha hb
        simp only [List.map_cons, List.map_nil, List.mem_cons,
          List.not_mem_nil, or_false] at hb
        rw [hb] at ha
        exact hnd'.2 ha
    · intro e he
      simp only [List.length_set]
      rcases hcase with ⟨_, _, h22⟩ | ⟨t, l2, _, h22, _⟩
      · rw [h22] at he
        exact hbd e he
      · rw [h22, mem_sortDesc] at he
        rcases List.mem_append.mp he with he | he
        · exact hbd e he
        · have : e = (⟨t, l2, o.src⟩ : Entry T) := by simpa using he
          rw [this]
          exact hobd

/-- A source that has signalled end-of-stream stays exhausted across any
step: it never contributes another pending line. -/
theorem mergeStep_exhausted {s s2 : List (List (T × String)) × List (Entry T)}
    {out : List (Entry T)} {i : Nat} (hstep : mergeStep s = some (out, s2))
    (hex : exhausted s i) : exhausted s2 i := by
  obtain ⟨srcs, fr⟩ := s
  match fr with
  | [] => exact absurd hstep (by simp [mergeStep])
  | f0 :: fr1 =>
    simp only [mergeStep, Option.some.injEq, Prod.mk.injEq] at hstep
    obtain ⟨hA, hB⟩ := hstep
    set o := (f0 :: fr1).getLast (List.cons_ne_nil f0 fr1) with hodef
    have honi : o.src ≠ i := by
      intro hcontra
      apply hex.2
      rw [← hcontra]
      exact List.mem_map.mpr ⟨o, List.getLast_mem _, rfl⟩
    obtain ⟨pre, rst, hsplit, houtq, hcase⟩ :=
      innerLoop_cases o.src (srcs.getD o.src []) ((f0 :: fr1).dropLast)
    rw [← hB]
    constructor
    · rw [getD_set_ne _ _ _ _ _ honi]
      exact hex.1
    · intro hmem
      obtain ⟨e, he, hesrc⟩ := List.mem_map.mp hmem
      rcases hcase with ⟨_, _, h22⟩ | ⟨t, l2, _, h22, _⟩
      · rw [h22] at he
        apply hex.2
        refine List.mem_map.mpr ⟨e, ?_, hesrc⟩
        exact (List.dropLast_sublist _).mem he
      · rw [h22, mem_sortDesc] at he
        rcases List.mem_append.mp he with he | he
        · apply hex.2
          refine List.mem_map.mpr ⟨e, ?_, hesrc⟩
          exact (List.dropLast_sublist _).mem he
        · have : e = (⟨t, l2, o.src⟩ : Entry T) := by simpa using he
          apply honi
          rw [← hesrc, this]

theorem nodup_subset_length {l l2 : List Nat} (hnd : l.Nodup) (hsub : l ⊆ l2) :
    l.length ≤ l2.length := by
  have h1 : l.toFinset.card = l.length := List.toFinset_card_of_nodup hnd
  have h2 : l.toFinset ⊆ l2.toFinset := by
    intro a ha
    exact List.mem_toFinset.mpr (hsub (List.mem_toFinset.mp ha))
  calc l.length = l.toFinset.card := h1.symm
    _ ≤ l2.toFinset.card := Finset.card_le_card h2
    _ ≤ l2.length := l2.toFinset_card_le

/-- C9: at every point in the merge loop the frontier holds at most one
pending line per source (pending source indices are pairwise distinct), only
for in-range sources that are not yet exhausted, so its size is at most the
number of not-yet-exhausted sources; and a source that has signalled
end-of-stream stays exhausted and never contributes another pending line for
the rest of the run. -/
theorem frontier_at_most_one_per_open_source
    {T : Type} [LinearOrder T] (srcs : List (List (T × String)))
    (s : List (List (T × String)) × List (Entry T))
    (hreach : Reach (initState srcs) s) :
    (s.2.map Entry.src).Nodup ∧
    (∀ e ∈ s.2, e.src < s.1.length ∧ ¬ exhausted s e.src) ∧
    s.2.length ≤ ((List.range s.1.length).filter
      (fun i => decide (¬ exhausted s i))).length ∧
    (∀ s2, Reach s s2 → ∀ i, exhausted s i →
      exhausted s2 i ∧ i ∉ s2.2.map Entry.src) := by
  have hinv : frontierInv s := by
    induction hreach with
    | refl => exact frontierInv_init srcs
    | tail hab hbc ih =>
      obtain ⟨o2, ho2⟩ := hbc
      exact mergeStep_inv ho2 ih
  refine ⟨hinv.1, ?_, ?_, ?_⟩
  · intro e he
    refine ⟨hinv.2 e he, ?_⟩
    intro hex
    exact hex.2 (List.mem_map.mpr ⟨e, he, rfl⟩)
  · have hlen : s.2.length = (s.2.map Entry.src).length := (List.length_map _ _).symm
    rw [hlen]
    apply nodup_subset_length hinv.1
    intro a ha
    obtain ⟨e, he, hesrc⟩ := List.mem_map.mp ha
    rw [List.mem_filter]
    refine ⟨List.mem_range.mpr (hesrc ▸ hinv.2 e he), ?_⟩
    refine decide_eq_true ?_
    intro hex
    exact hex.2 (hesrc ▸ List.mem_map.mpr ⟨e, he, rfl⟩)
  · intro s2 hreach2 i hex
    have hex2 : exhausted s2 i := by
      induction hreach2 with
      | refl => exact hex
      | tail hab hbc ih =>
        obtain ⟨o2, ho2⟩ := hbc
        exact mergeStep_exhausted ho2 ih
    exact ⟨hex2, hex2.2⟩

/-- Witness for C9 at a concrete state: the initial state of a one-line
source, reachable from itself. -/
theorem frontier_at_most_one_per_open_source_witness :
    Reach (initState [[((0 : Nat), "a")]]) (initState [[((0 : Nat), "a")]]) ∧
    (((initState [[((0 : Nat), "a")]]).2.map Entry.src).Nodup ∧
    (∀ e ∈ (initState [[((0 : Nat), "a")]]).2,
      e.src < (initState [[((0 : Nat), "a")]]).1.length ∧
      ¬ exhausted (initState [[((0 : Nat), "a")]]) e.src) ∧
    (initState [[((0 : Nat), "a")]]).2.length ≤
      ((List.range (initState [[((0 : Nat), "a")]]).1.length).filter
        (fun i => decide (¬ exhausted (initState [[((0 : Nat), "a")]]) i))).length ∧
    (∀ s2, Reach (initState [[((0 : Nat), "a")]]) s2 → ∀ i,
      exhausted (initState [[((0 : Nat), "a")]]) i →
      exhausted s2 i ∧ i ∉ s2.2.map Entry.src)) :=
  ⟨Relation.ReflTransGen.refl,
    frontier_at_most_one_per_open_source [[((0 : Nat), "a")]] _
      Relation.ReflTransGen.refl⟩

/-! ## Fast path versus always-resort (claim C2) -/

/-- The multiset of all instants still present in a merge state: pending in
the frontier or unread in a source. -/
def stateTs (srcs : List (List (T × String))) (fr : List (Entry T)) : Multiset T :=
  (↑(fr.map Entry.ts) : Multiset T) + ↑((allEntriesFrom 0 srcs).map Entry.ts)

theorem mem_allEntriesFrom_of_getD (k : Nat) :
    ∀ (srcs : List (List (T × String))) (i : Nat) (q : T × String),
    i < srcs.length → q ∈ srcs.getD i [] →
    (⟨q.1, q.2, k + i⟩ : Entry T) ∈ allEntriesFrom k srcs
  | [], i, q, h, _ => by simp at h
  | s :: rest, 0, q, _, hq => by
    simp only [List.getD_cons_zero] at hq
    simp only [allEntriesFrom, Nat.add_zero]
    refine List.mem_append.mpr (Or.inl ?_)
    unfold tagged
    exact List.mem_map.mpr ⟨q, hq, rfl⟩
  | s :: rest, i + 1, q, h, hq => by
    simp only [List.getD_cons_succ] at hq
    simp only [allEntriesFrom]
    refine List.mem_append.mpr (Or.inr ?_)
    have := mem_allEntriesFrom_of_getD (k + 1) rest i q (by simpa using h) hq
    have hk : k + (i + 1) = (k + 1) + i := by omega
    rw [hk]
    exact this

/-- Consuming one line from source `i` removes exactly its instant from the
entry bookkeeping. -/
theorem allE_ts_set {srcs : List (List (T × String))} {i : Nat} {t : T}
    {l : String} {r2 : List (T × String)} (hlt : i < srcs.length)
    (hm : srcs.getD i [] = (t, l) :: r2) :
    ((allEntriesFrom 0 (srcs.set i r2)).map Entry.ts : Multiset T) + {t} =
      ((allEntriesFrom 0 srcs).map Entry.ts : Multiset T) := by
  have h := allEntriesFrom_set 0 srcs i r2 hlt
  simp only [Nat.zero_add, hm, tagged_cons, mcoe_cons] at h
  have h2 : (↑(allEntriesFrom 0 (srcs.set i r2)) : Multiset (Entry T)) +
      {(⟨t, l, i⟩ : Entry T)} = ↑(allEntriesFrom 0 srcs) := by
    have h3 : (↑(allEntriesFrom 0 (srcs.set i r2)) : Multiset (Entry T)) +
        {(⟨t, l, i⟩ : Entry T)} + ↑(tagged i r2) =
        ↑(allEntriesFrom 0 srcs) + ↑(tagged i r2) := by
      calc (↑(allEntriesFrom 0 (srcs.set i r2)) : Multiset (Entry T)) +
            {(⟨t, l, i⟩ : Entry T)} + ↑(tagged i r2)
          = ↑(allEntriesFrom 0 (srcs.set i r2)) +
            ({(⟨t, l, i⟩ : Entry T)} + ↑(tagged i r2)) := by abel
        _ = ↑(allEntriesFrom 0 srcs) + ↑(tagged i r2) := h
    exact add_right_cancel h3
  have h4 := congrArg (Multiset.map Entry.ts) h2
  simpa using h4

/-- Appending a strictly smaller entry to a descending-sorted frontier keeps
it sorted, so the re-sort is the identity. -/
theorem sortDesc_append_min {fr : List (Entry T)} {e : Entry T}
    (hs : List.Sorted entGe fr) (hmin : ∀ x ∈ fr, e.ts < x.ts) :
    sortDesc (fr ++ [e]) = fr ++ [e] := by
  apply sortDesc_of_sorted
  rw [List.Sorted, List.pairwise_append]
  refine ⟨hs, List.pairwise_singleton _ _, ?_⟩
  intro a ha b hb
  have hbe : b = e := by simpa using hb
  rw [hbe]
  exact Or.inl (hmin a ha)

/-- The always-resort variant's continuation after emitting from source `i`:
pull one line from the source; if exhausted, continue with the frontier as
is; otherwise append the line to the frontier and re-sort. -/
def resortPull (i : Nat) (srcs : List (List (T × String)))
    (fr : List (Entry T)) : List (Entry T) :=
  match srcs.getD i [] with
  | [] => mergeLoopResort srcs fr
  | (t, l) :: r2 =>
    mergeLoopResort (srcs.set i r2) (sortDesc (fr ++ [⟨t, l, i⟩]))

theorem mergeLoopResort_nil (srcs : List (List (T × String))) :
    mergeLoopResort srcs [] = [] := by
  rw [mergeLoopResort]

theorem resortPull_cons (i : Nat) (srcs : List (List (T × String)))
    (fr' : List (Entry T)) (t : T) (l : String) (r2 : List (T × String))
    (hget : srcs.getD i [] = (t, l) :: r2) :
    resortPull i srcs fr' =
      mergeLoopResort (srcs.set i r2) (sortDesc (fr' ++ [⟨t, l, i⟩])) := by
  unfold resortPull
  rw [hget]

theorem mergeLoopResort_ne_nil (srcs : List (List (T × String)))
    (fr : List (Entry T)) (hne : fr ≠ []) :
    mergeLoopResort srcs fr =
      fr.getLast hne :: resortPull (fr.getLast hne).src srcs fr.dropLast := by
  match fr with
  | f0 :: fr1 =>
    rw [mergeLoopResort]
    unfold resortPull
    split
    · rename_i heq
      rw [heq]
    · rename_i t l rest heq
      rw [heq]

theorem stateTs_emit {srcs : List (List (T × String))} {i : Nat} {t : T}
    {l : String} {r2 : List (T × String)} (hlt : i < srcs.length)
    (hm : srcs.getD i [] = (t, l) :: r2) (fr' : List (Entry T)) :
    stateTs (srcs.set i r2) fr' + {t} = stateTs srcs fr' := by
  unfold stateTs
  have h := allE_ts_set hlt hm
  calc (↑(fr'.map Entry.ts) : Multiset T) +
        ↑((allEntriesFrom 0 (srcs.set i r2)).map Entry.ts) + {t}
      = ↑(fr'.map Entry.ts) +
        (↑((allEntriesFrom 0 (srcs.set i r2)).map Entry.ts) + {t}) := by abel
    _ = ↑(fr'.map Entry.ts) + ↑((allEntriesFrom 0 srcs).map Entry.ts) := by rw [h]

theorem stateTs_insert {srcs : List (List (T × String))} {i : Nat} {t : T}
    {l : String} {r2 : List (T × String)} (hlt : i < srcs.length)
    (hm : srcs.getD i [] = (t, l) :: r2) (fr' : List (Entry T)) :
    stateTs (srcs.set i r2) (sortDesc (fr' ++ [⟨t, l, i⟩])) = stateTs srcs fr' := by
  unfold stateTs
  have h := allE_ts_set hlt hm
  have hperm : (↑((sortDesc (fr' ++ [(⟨t, l, i⟩ : Entry T)])).map Entry.ts) : Multiset T) =
      ↑((fr' ++ [(⟨t, l, i⟩ : Entry T)]).map Entry.ts) :=
    Multiset.coe_eq_coe.mpr ((sortDesc_perm _).map Entry.ts)
  rw [hperm]
  calc (↑((fr' ++ [(⟨t, l, i⟩ : Entry T)]).map Entry.ts) : Multiset T) +
        ↑((allEntriesFrom 0 (srcs.set i r2)).map Entry.ts)
      = ↑(fr'.map Entry.ts) +
        (↑((allEntriesFrom 0 (srcs.set i r2)).map Entry.ts) + {t}) := by
        simp only [List.map_append, List.map_cons, List.map_nil, mcoe_append]
        simp only [mcoe_cons, Multiset.coe_nil]
        abel
    _ = ↑(fr'.map Entry.ts) + ↑((allEntriesFrom 0 srcs).map Entry.ts) := by rw [h]

theorem stateTs_mono_frontier {srcs : List (List (T × String))}
    {fr2 fr : List (Entry T)} (h : fr2.Sublist fr) :
    stateTs srcs fr2 ≤ stateTs srcs fr := by
  unfold stateTs
  refine add_le_add_right ?_ _
  exact Multiset.coe_le.mpr (h.map Entry.ts).subperm

/-- With pairwise-distinct instants, the head instant of a source differs
from every pending instant. -/
theorem ts_head_ne_frontier {srcs : List (List (T × String))}
    {fr' : List (Entry T)} {i : Nat} {t : T} {l : String}
    {r2 : List (T × String)} (hnd : (stateTs srcs fr').Nodup)
    (hlt : i < srcs.length) (hm : srcs.getD i [] = (t, l) :: r2)
    (x : Entry T) (hx : x ∈ fr') : t ≠ x.ts := by
  intro he
  rw [stateTs, Multiset.nodup_add] at hnd
  have h1 : x.ts ∈ (↑(fr'.map Entry.ts) : Multiset T) := by
    rw [Multiset.mem_coe]
    exact List.mem_map.mpr ⟨x, hx, rfl⟩
  have h2 : t ∈ (↑((allEntriesFrom 0 srcs).map Entry.ts) : Multiset T) := by
    rw [Multiset.mem_coe]
    have hmem := mem_allEntriesFrom_of_getD 0 srcs i (t, l) hlt
      (by rw [hm]; exact List.mem_cons_self _ _)
    simp only [Nat.zero_add] at hmem
    exact List.mem_map.mpr ⟨⟨t, l, i⟩, hmem, rfl⟩
  rw [he] at h2
  exact Multiset.disjoint_left.mp hnd.2.2 h1 h2

/-- One fast-path run agrees with the corresponding sequence of
pull-insert-resort-pop steps of the always-resort variant, provided all
instants in the state are pairwise distinct. -/
theorem il_equiv (N : Nat)
    (IH : ∀ (srcs : List (List (T × String))) (fr : List (Entry T)),
      srcsSize srcs + fr.length ≤ N →
      List.Sorted entGe fr →
      (∀ e ∈ fr, e.src < srcs.length) →
      (stateTs srcs fr).Nodup →
      mergeLoop srcs fr = mergeLoopResort srcs fr)
    (i : Nat) :
    ∀ (rest : List (T × String)) (srcs : List (List (T × String)))
      (fr' : List (Entry T)),
    srcs.getD i [] = rest → i < srcs.length →
    srcsSize srcs + fr'.length ≤ N →
    List.Sorted entGe fr' →
    (∀ e ∈ fr', e.src < srcs.length) →
    (stateTs srcs fr').Nodup →
    (innerLoop i rest fr').1 ++
      mergeLoop (srcs.set i (innerLoop i rest fr').2.1) (innerLoop i rest fr').2.2 =
      resortPull i srcs fr'
  | [], srcs, fr', hget, _, hmN, hsort, hsrc, hnd => by
    simp only [innerLoop, List.nil_append]
    have hset : srcs.set i [] = srcs := by
      have h := set_getD_eq_self srcs i
      rw [hget] at h
      exact h
    rw [hset, IH srcs fr' hmN hsort hsrc hnd]
    unfold resortPull
    rw [hget]
  | (t, l) :: r2, srcs, fr', hget, hlt, hmN, hsort, hsrc, hnd => by
    have hmsz : srcsSize (srcs.set i r2) + 1 = srcsSize srcs := by
      have h := srcsSize_set srcs i r2 hlt
      rw [hget] at h
      simp only [List.length_cons] at h
      omega
    by_cases hf : fastInsert fr' t
    · simp only [innerLoop, hf, if_true]
      unfold resortPull
      rw [hget]
      refine IH _ _ ?_ (sortDesc_sorted _) ?_ ?_
      · rw [sortDesc_length]
        simp only [List.length_append, List.length_cons, List.length_nil]
        omega
      · intro e he
        rw [mem_sortDesc] at he
        rw [List.length_set]
        rcases List.mem_append.mp he with he | he
        · exact hsrc e he
        · have he2 : e = (⟨t, l, i⟩ : Entry T) := by simpa using he
          rw [he2]
          exact hlt
      · rw [stateTs_insert hlt hget]
        exact hnd
    · have hmin2 : ∀ x ∈ fr', t < x.ts := by
        intro x hx
        have hne : fr' ≠ [] := List.ne_nil_of_mem hx
        have hlq := List.getLast?_eq_getLast_of_ne_nil hne
        have hle : t ≤ (fr'.getLast hne).ts := by
          unfold fastInsert at hf
          rw [hlq] at hf
          simp only [decide_eq_true_eq] at hf
          exact not_lt.mp hf
        have hneq : t ≠ (fr'.getLast hne).ts :=
          ts_head_ne_frontier hnd hlt hget _ (List.getLast_mem hne)
        have hlt2 : t < (fr'.getLast hne).ts := lt_of_le_of_ne hle hneq
        exact lt_of_lt_of_le hlt2 (entLe_ts (sorted_getLast_le hsort hne x hx))
      have hsorteq : sortDesc (fr' ++ [(⟨t, l, i⟩ : Entry T)]) =
          fr' ++ [⟨t, l, i⟩] :=
        sortDesc_append_min hsort hmin2
      simp only [innerLoop, hf, if_false, Bool.false_eq_true]
      rw [resortPull_cons i srcs fr' t l r2 hget, hsorteq]
      have hne2 : fr' ++ [(⟨t, l, i⟩ : Entry T)] ≠ [] := by simp
      rw [mergeLoopResort_ne_nil _ _ hne2]
      have hgl : (fr' ++ [(⟨t, l, i⟩ : Entry T)]).getLast hne2 = ⟨t, l, i⟩ := by
        simp [List.getLast_append]
      have hdl : (fr' ++ [(⟨t, l, i⟩ : Entry T)]).dropLast = fr' := by simp
      rw [hgl, hdl, List.cons_append]
      refine congrArg (List.cons _) ?_
      have hih := il_equiv N IH i r2 (srcs.set i r2) fr' (getD_set_eq _ _ _ _ hlt)
        (by rw [List.length_set]; exact hlt)
        (by omega)
        hsort
        (fun e he => by rw [List.length_set]; exact hsrc e he)
        (by
          refine Multiset.nodup_of_le ?_ hnd
          rw [← stateTs_emit hlt hget fr']
          exact Multiset.le_add_right _ _)
      rw [List.set_set] at hih
      exact hih

/-- With pairwise-distinct instants, the fast-path merge loop and the
always-resort merge loop produce identical emission sequences from any
well-formed state. -/
theorem merge_eq_resort :
    ∀ (N : Nat) (srcs : List (List (T × String))) (fr : List (Entry T)),
    srcsSize srcs + fr.length ≤ N →
    List.Sorted entGe fr →
    (∀ e ∈ fr, e.src < srcs.length) →
    (stateTs srcs fr).Nodup →
    mergeLoop srcs fr = mergeLoopResort srcs fr := by
  intro N
  induction N with
  | zero =>
    intro srcs fr hm _ _ _
    match fr with
    | [] => rw [mergeLoop_nil, mergeLoopResort_nil]
    | f0 :: fr1 => simp at hm
  | succ N ih =>
    intro srcs fr hm hsort hsrc hnd
    match fr with
    | [] => rw [mergeLoop_nil, mergeLoopResort_nil]
    | f0 :: fr1 =>
      set o := (f0 :: fr1).getLast (List.cons_ne_nil f0 fr1) with hodef
      rw [mergeLoop_cons srcs f0 fr1 o hodef.symm]
      rw [mergeLoopResort_ne_nil srcs (f0 :: fr1) (List.cons_ne_nil f0 fr1)]
      refine congrArg (List.cons o) ?_
      refine il_equiv N ih o.src (srcs.getD o.src []) srcs ((f0 :: fr1).dropLast) rfl
        (hsrc o (List.getLast_mem _)) ?_
        (hsort.sublist (List.dropLast_sublist _))
        (fun e he => hsrc e ((List.dropLast_sublist _).mem he)) ?_
      · simp only [List.length_cons] at hm
        simp only [List.length_dropLast, List.length_cons]
        omega
      · exact Multiset.nodup_of_le
          (stateTs_mono_frontier (List.dropLast_sublist _)) hnd

/-- C2 (amended): for every input whose resolved instants are pairwise
distinct, the merge loop with the fast-path shortcut produces byte-identical
output to the variant that always reinserts the newly pulled line into the
frontier and re-sorts before selecting the next line. -/
theorem fastpath_eq_resort_of_distinct_instants {T : Type} [LinearOrder T]
    (srcs : List (List (T × String)))
    (hdist : ((allEntriesFrom 0 srcs).map Entry.ts).Nodup) :
    logint_output srcs = logint_outputResort srcs := by
  unfold logint_output logint_outputResort
  refine congrArg (List.map Entry.line) ?_
  unfold logint_merge logint_mergeResort
  refine merge_eq_resort (srcsSize (initSrcs srcs) + (initFrontier srcs).length) _ _
    (le_refl _) (sortDesc_sorted _) ?_ ?_
  · intro e he
    exact (frontierInv_init srcs).2 e he
  · have h4 : (↑((initFrontier srcs).map Entry.ts) : Multiset T) =
        ↑((initPullsFrom 0 srcs).map Entry.ts) := by
      unfold initFrontier
      exact Multiset.coe_eq_coe.mpr ((sortDesc_perm _).map Entry.ts)
    have h5 : (↑((allEntriesFrom 0 srcs).map Entry.ts) : Multiset T) =
        ↑((initPullsFrom 0 srcs).map Entry.ts) +
          ↑((allEntriesFrom 0 (srcs.map (List.drop 1))).map Entry.ts) := by
      have h2 := initSplit 0 srcs
      have h3 := congrArg (Multiset.map Entry.ts) h2
      simpa using h3
    have h1 : stateTs (initSrcs srcs) (initFrontier srcs) =
        ↑((allEntriesFrom 0 srcs).map Entry.ts) := by
      unfold stateTs initSrcs
      rw [h4, h5]
    rw [h1]
    exact Multiset.coe_nodup.mpr hdist

/-- C2 (counterexample to the claim as stated): with an instant tie between
the newly pulled line and the frontier's minimum, the fast path emits the
new line at once while the always-resort variant emits the other source's
line first, because the fast-path check compares instants only while the
sort breaks ties by line text.  Sources: source 0 holds instants 0 then 1
(lines "a" then "z"), source 1 holds instant 1 (line "b"). -/
theorem fastpath_resort_differ_on_equal_instants :
    logint_output ([[(0, "a"), (1, "z")], [(1, "b")]] : List (List (Nat × String))) ≠
      logint_outputResort ([[(0, "a"), (1, "z")], [(1, "b")]] :
        List (List (Nat × String))) := by
  have h1 : logint_output ([[(0, "a"), (1, "z")], [(1, "b")]] :
      List (List (Nat × String))) = ["a", "z", "b"] := by
    simp [logint_output, logint_merge, mergeLoop, initSrcs, initFrontier, initPullsFrom,
      innerLoop, fastInsert, sortDesc, tagged, List.insertionSort, List.orderedInsert,
      entGe, entLe, strLt, charsLtB]
  have h2 : logint_outputResort ([[(0, "a"), (1, "z")], [(1, "b")]] :
      List (List (Nat × String))) = ["a", "b", "z"] := by
    simp [logint_outputResort, logint_mergeResort, mergeLoopResort, initSrcs, initFrontier,
      initPullsFrom, innerLoop, fastInsert, sortDesc, tagged, List.insertionSort,
      List.orderedInsert, entGe, entLe, strLt, charsLtB]
  rw [h1, h2]
  decide

/-- Witness for the amended C2 at a concrete input with pairwise-distinct
instants. -/
theorem fastpath_eq_resort_of_distinct_instants_witness :
    ((allEntriesFrom 0 ([[(0, "x"), (2, "y")], [(1, "w")]] :
        List (List (Nat × String)))).map Entry.ts).Nodup ∧
    logint_output ([[(0, "x"), (2, "y")], [(1, "w")]] : List (List (Nat × String))) =
      logint_outputResort ([[(0, "x"), (2, "y")], [(1, "w")]] :
        List (List (Nat × String))) :=
  ⟨by decide, fastpath_eq_resort_of_distinct_instants _ (by decide)⟩

/-! ## The month-name lookup (source lines 19-33)

`MONTH_MAP` maps lowercased full month names to 1..12 in calendar order;
`month_from_str` first checks a memoizing cache keyed by the first nine
characters of the raw input, then lowercases the input and scans the month
names in order for the first whose name starts with the input.  Python
lowercases and slices strings by code point; the embedding uses its own
code-point-level string helpers so that everything evaluates in the kernel
(ASCII case folding, which covers the month names). -/

/-- Python slice `s[:9]`: the first nine characters. -/
def take9 (s : String) : String := String.mk (s.data.take 9)

/-- Python `s.lower()`, restricted to ASCII case folding. -/
def pyLower (s : String) : String := String.mk (s.data.map Char.toLower)

/-- Python `s.startswith(pre)`. -/
def startsWithPy (s pre : String) : Bool := pre.data.isPrefixOf s.data

/-- The lowercased keys of `MONTH_MAP`, in insertion (calendar) order; the
value of a name is its position plus one. -/
def MONTH_NAMES : List String :=
  ["january", "february", "march", "april", "may", "june", "july", "august",
   "september", "october", "november", "december"]

/-- Model of `month_from_str` (source lines 21-33).  The global cache is
threaded explicitly: `none` models `raise ValueError`; on success the
possibly-grown cache is returned with the month number. -/
def month_from_str (cache : List (String × Nat)) (monthval : String) :
    Option (Nat × List (String × Nat)) :=
  if monthval = "" then none
  else
    match cache.lookup (take9 monthval) with
    | some m => some (m, cache)
    | none =>
      let monthstr := pyLower monthval
      match MONTH_NAMES.findIdx? (fun name => startsWithPy name monthstr) with
      | some idx => some (idx + 1, (take9 monthval, idx + 1) :: cache)
      | none => none

/-! ## Pattern validation (source lines 175-188) -/

/-- `VALID_COMPONENTS` (source line 17). -/
def VALID_COMPONENTS : List String := ["s", "y", "m", "b", "d", "H", "M", "S", "f"]

/-- The parts of a compiled Python regex object the validator inspects:
`pattern` is the source text, `groupindex` the declared named capture
groups, `groups` the total number of capture groups. -/
structure CompiledRegex where
  pattern : String
  groupindex : List String
  groups : Nat
deriving DecidableEq, Repr

/-- The fatal configuration errors of the validation loop, carrying what the
error messages print. -/
inductive ConfigError where
  | unrecognizedNamedGroup (name pattern : String)
  | missingRequiredNamedGroups (pattern : String)
  | missingRequiredGroup (pattern : String)
deriving DecidableEq, Repr

/-- One iteration of the validation loop (source lines 175-188): `none`
means the pattern is accepted. -/
def validateRegex (r : CompiledRegex) : Option ConfigError :=
  if r.groupindex ≠ [] then
    if ¬ (r.groupindex.all (fun n => VALID_COMPONENTS.contains n)) then
      some (.unrecognizedNamedGroup
        ((r.groupindex.filter (fun n => ¬ VALID_COMPONENTS.contains n)).headD "")
        r.pattern)
    else if r.groupindex.contains "s" then none
    else if r.groupindex.contains "d" &&
        (r.groupindex.contains "m" || r.groupindex.contains "b") then none
    else some (.missingRequiredNamedGroups r.pattern)
  else if r.groups < 1 then some (.missingRequiredGroup r.pattern)
  else none

/-! ## Number parsing helpers for the resolver

Python `int(...)` and `float(...)`, modelled at the level the resolver
needs: `pyIntParse` accepts an optionally signed ASCII digit string with
surrounding whitespace; `pyFloatOk` recognizes the Python float literal
grammar (decimal mantissa, optional exponent, `inf`/`infinity`/`nan`,
optional sign, surrounding whitespace). -/

/-- The whitespace stripped by Python `str.strip()` (ASCII part). -/
def isPySpace (c : Char) : Bool :=
  c == ' ' || c == '\t' || c == '\n' || c == '\r' || c == '\x0B' || c == '\x0C'

/-- Python `s.strip()` (ASCII whitespace). -/
def asciiStrip (s : String) : String :=
  String.mk (((s.data.dropWhile isPySpace).reverse.dropWhile isPySpace).reverse)

/-- Value of an ASCII digit string. -/
def digitsVal (cs : List Char) : Nat :=
  cs.foldl (fun a c => 10 * a + (c.toNat - '0'.toNat)) 0

/-- Python `int(s)` restricted to stripped signed ASCII digit strings,
where it agrees with `int()` exactly; its `none` overshoots `int()`'s
failures (Python also accepts underscore grouping and non-ASCII digits
and whitespace), so claims use `pyIntParse s = some v` as a sound
success hypothesis, and conclude from `none` only under a hypothesis —
an ASCII letter in the string — that makes `int()` certainly raise
`ValueError` too. -/
def pyIntParse (s : String) : Option Int :=
  match (asciiStrip s).data with
  | [] => none
  | c :: rest =>
    if c = '-' then
      if !rest.isEmpty && rest.all Char.isDigit then some (-(digitsVal rest : Int))
      else none
    else if c = '+' then
      if !rest.isEmpty && rest.all Char.isDigit then some ((digitsVal rest : Int))
      else none
    else if (c :: rest).all Char.isDigit then some ((digitsVal (c :: rest) : Int))
    else none

/-- Drops one leading sign character. -/
def stripSign : List Char → List Char
  | [] => []
  | c :: r => if c = '+' || c = '-' then r else c :: r

/-- Recognizes a float mantissa and returns the remainder of the input. -/
def floatMantissa (cs : List Char) : Option (List Char) :=
  match cs.span Char.isDigit with
  | (d1, r1) =>
    match r1 with
    | '.' :: r2 =>
      match r2.span Char.isDigit with
      | (d2, r3) => if d1.isEmpty && d2.isEmpty then none else some r3
    | _ => if d1.isEmpty then none else some r1

/-- Recognizes an optional float exponent making up the rest of the input. -/
def floatExpOk : List Char → Bool
  | [] => true
  | 'e' :: r => !(stripSign r).isEmpty && (stripSign r).all Char.isDigit
  | 'E' :: r => !(stripSign r).isEmpty && (stripSign r).all Char.isDigit
  | _ => false

/-- An approximation of the grammar Python `float(s)` accepts (ASCII,
no underscore grouping), counting `inf`/`nan` spellings as parseable.
No claim uses it as the epoch branch's success predicate — `float`'s
success does not make `fromtimestamp` succeed (out-of-range and NaN
values raise `ValueError`, infinite and huge ones `OverflowError`); the
claims about the epoch branch are stated over
`datetime_from_match_fromts` below, which models the whole library call
by an oracle. -/
def pyFloatOk (s : String) : Bool :=
  let cs := stripSign (asciiStrip s).data
  if cs.map Char.toLower = "inf".data ∨ cs.map Char.toLower = "infinity".data ∨
      cs.map Char.toLower = "nan".data then true
  else
    match floatMantissa cs with
    | some r => floatExpOk r
    | none => false

/-- Python `s.ljust(6, '0')` as used for the fractional second. -/
def ljust6 (s : String) : String :=
  String.mk (s.data ++ List.replicate (6 - s.data.length) '0')

/-! ## The timestamp resolver `datetime_from_match` (source lines 35-93) -/

/-- `YEAR_SPLIT` (source line 15), as a function of the reference instant's
year instead of a process-wide sample of `now`. -/
def YEAR_SPLIT (refYear : Int) : Int := refYear % 100 + 10

/-- The naive datetime the component path constructs (the timezone is the
single process-wide local zone and does not affect any claim). -/
structure DT where
  year : Int
  month : Int
  day : Int
  hour : Int
  minute : Int
  second : Int
  microsecond : Int
deriving DecidableEq, Repr

def isLeap (y : Int) : Bool :=
  decide (y % 4 = 0 ∧ (y % 100 ≠ 0 ∨ y % 400 = 0))

def daysInMonth (y m : Int) : Int :=
  if m = 1 ∨ m = 3 ∨ m = 5 ∨ m = 7 ∨ m = 8 ∨ m = 10 ∨ m = 12 then 31
  else if m = 4 ∨ m = 6 ∨ m = 9 ∨ m = 11 then 30
  else if m = 2 then (if isLeap y then 29 else 28)
  else 0

/-- The range checks `datetime.datetime(...)` performs; violating them
raises the `ValueError` caught on source line 81. -/
def DT.validRange (dt : DT) : Prop :=
  1 ≤ dt.year ∧ dt.year ≤ 9999 ∧ 1 ≤ dt.month ∧ dt.month ≤ 12 ∧
  1 ≤ dt.day ∧ dt.day ≤ daysInMonth dt.year dt.month ∧
  0 ≤ dt.hour ∧ dt.hour ≤ 23 ∧ 0 ≤ dt.minute ∧ dt.minute ≤ 59 ∧
  0 ≤ dt.second ∧ dt.second ≤ 59 ∧ 0 ≤ dt.microsecond ∧ dt.microsecond ≤ 999999

instance (dt : DT) : Decidable dt.validRange := by
  unfold DT.validRange
  exact inferInstance

/-- The fatal errors `datetime_from_match` reports before calling
`exit(1)`, carrying exactly the data each `print` interpolates (source
lines 42, 49, 55, 61, 82, 87, 92).  Note `invalidDateValues` (line 82)
carries `match.group()` — the matched text — and not the line. -/
inductive ResolveError where
  | invalidUnixTimestamp (value pattern file line : String)
  | invalidIntMonth (value pattern file line : String)
  | invalidMonthString (value pattern file line : String)
  | invalidIntYear (value pattern file line : String)
  | invalidDateValues (matched pattern file : String)
  | emptyCapture (pattern file line : String)
  | invalidDateString (value pattern file line : String)
deriving DecidableEq, Repr

/-- A successfully resolved instant: the epoch path returns
`datetime.fromtimestamp(float(text), tz=utc)` (kept as the parsed text), the
component path a locally-zoned constructed datetime, the raw-string path
whatever `dateutil.parser.parse` produced. -/
inductive Resolved where
  | epochUTC (secondsText : String)
  | localDT (dt : DT)
  | parsedDT (dt : DT)
deriving DecidableEq, Repr

/-- Outcome of the resolver: a value, a printed-and-fatal error, or an
uncaught Python exception (`KeyError` on `vals['b']`/`vals['d']` for a
pattern that validation would have rejected). -/
inductive ResolveOutcome where
  | ok (r : Resolved)
  | fatal (e : ResolveError)
  | crash (msg : String)
deriving DecidableEq, Repr

/-- `match.groupdict()` for a named-group pattern, restricted to matches
whose declared groups all participated: a declared group maps to its
captured text, and `none` models an undeclared group.  A declared group
that did not participate (Python value `None`, feeding `float`/`int`/
`.strip()` a `None` and raising `TypeError`/`AttributeError` uncaught)
is outside this model, so every claim over a `GroupDict` speaks of
matches whose declared components captured text. -/
structure GroupDict where
  s : Option String := none
  y : Option String := none
  m : Option String := none
  b : Option String := none
  d : Option String := none
  H : Option String := none
  M : Option String := none
  S : Option String := none
  f : Option String := none
deriving DecidableEq, Repr

/-- The two shapes of `match` the resolver distinguishes by
`match.re.groupindex` (line 36): named capture groups, or the positional
`match.group(1)` (an unmatched or empty group 1 is the empty string). -/
inductive MatchGroups where
  | named (gd : GroupDict)
  | positional (group1 : String)
deriving DecidableEq, Repr

/-- What the resolver reads off a Python match object: `match.re.pattern`,
`match.string` (the line), `match.group()` (the matched text), and the
capture groups. -/
structure PyMatch where
  pattern : String
  string : String
  matched : String
  groups : MatchGroups
deriving DecidableEq, Repr

/-- The datetime construction (source lines 70-83): `int(vals['d'])`,
defaulted hour/minute/second, the stripped and right-padded fractional
second, and the constructor's range checks; every failure raises the
`ValueError` reported on line 82, which prints `match.group()`, the
pattern and the file. -/
def construct_datetime (gd : GroupDict) (mt : PyMatch) (filename : String)
    (year month : Int) : ResolveOutcome :=
  match gd.d with
  | none => .crash "KeyError"
  | some dv =>
    match pyIntParse dv,
      (match gd.H with | some v => pyIntParse v | none => some 0),
      (match gd.M with | some v => pyIntParse v | none => some 0),
      (match gd.S with | some v => pyIntParse v | none => some 0),
      (match gd.f with | some v => pyIntParse (ljust6 (asciiStrip v)) | none => some 0) with
    | some day, some hour, some minute, some second, some usec =>
      if (⟨year, month, day, hour, minute, second, usec⟩ : DT).validRange then
        .ok (.localDT ⟨year, month, day, hour, minute, second, usec⟩)
      else .fatal (.invalidDateValues mt.matched mt.pattern filename)
    | _, _, _, _, _ => .fatal (.invalidDateValues mt.matched mt.pattern filename)

/-- The year resolution (source lines 57-69): parse `y` if declared, window
two-digit years around `YEAR_SPLIT`, default an absent year to the
reference instant's year; then construct the datetime. -/
def resolve_year (refYear : Int) (gd : GroupDict) (mt : PyMatch)
    (filename : String) (month : Int) : ResolveOutcome :=
  match gd.y with
  | some yv =>
    match pyIntParse yv with
    | none => .fatal (.invalidIntYear yv mt.pattern filename mt.string)
    | some y0 =>
      construct_datetime gd mt filename
        (if y0 < 100 then
          (if y0 ≤ YEAR_SPLIT refYear then y0 + 2000 else y0 + 1900)
        else y0) month
  | none => construct_datetime gd mt filename refYear month

/-- `datetime_from_match` (source lines 35-93).  `dparse` stands for the
external library call `dateutil.parser.parse(..., default=TS_WITH_ZONE)`
of the raw-string path (line 90), `refYear` for `TS_WITH_ZONE.year`, and the
month cache is threaded through explicitly.  The epoch branch here
simplifies the `try` of lines 39-43 to a grammar test; the claims about
that branch are stated over `datetime_from_match_fromts` below, which
refines it with an oracle for the `fromtimestamp` call's outcome and
agrees with this definition everywhere else. -/
def datetime_from_match (dparse : String → Option DT) (refYear : Int)
    (cache : List (String × Nat)) (mt : PyMatch) (filename : String) :
    ResolveOutcome × List (String × Nat) :=
  match mt.groups with
  | .named gd =>
    match gd.s with
    | some sv =>
      (if pyFloatOk sv then .ok (.epochUTC sv)
       else .fatal (.invalidUnixTimestamp sv mt.pattern filename mt.string), cache)
    | none =>
      match gd.m with
      | some mv =>
        match pyIntParse mv with
        | some month => (resolve_year refYear gd mt filename month, cache)
        | none => (.fatal (.invalidIntMonth mv mt.pattern filename mt.string), cache)
      | none =>
        match gd.b with
        | some bv =>
          match month_from_str cache bv with
          | some (month, cache2) =>
            (resolve_year refYear gd mt filename (month : Int), cache2)
          | none => (.fatal (.invalidMonthString bv mt.pattern filename mt.string), cache)
        | none => (.crash "KeyError", cache)
  | .positional g1 =>
    if g1 = "" then
      (.fatal (.emptyCapture mt.pattern filename mt.string), cache)
    else
      match dparse g1 with
      | some dt => (.ok (.parsedDT dt), cache)
      | none => (.fatal (.invalidDateString g1 mt.pattern filename mt.string), cache)

/-! ## Claim C3: pattern validation -/

/-- C3 (counterexample to the claim as stated): a pattern declaring `s`
together with an unknown named group is rejected, because the
unknown-name check (line 177) runs before the `s` shortcut (line 180) —
contradicting "a pattern declaring s is accepted regardless of its other
named groups". -/
theorem validate_rejects_s_with_unknown_name :
    validateRegex ⟨"(?P<s>[0-9]+)(?P<x>.)", ["s", "x"], 2⟩ ≠ none := by
  decide

/-- C3 (amended): validation accepts a pattern exactly when either it has
named groups, all drawn from the component vocabulary, and declares `s` or
else `d` together with `m` or `b`; or it has no named groups and at least
one capture group.  In particular: any unknown name is rejected (even
alongside `s`); a named pattern without `s` must declare `d` plus one of
`m`/`b`; a pattern with no named groups and no capture group is rejected;
and a pattern declaring `s` is accepted regardless of which other declared
components it has, provided all names are in the vocabulary. -/
theorem validate_ok_characterization (r : CompiledRegex) :
    validateRegex r = none ↔
      ((r.groupindex ≠ [] ∧ (∀ n ∈ r.groupindex, n ∈ VALID_COMPONENTS) ∧
        ("s" ∈ r.groupindex ∨
          ("d" ∈ r.groupindex ∧ ("m" ∈ r.groupindex ∨ "b" ∈ r.groupindex)))) ∨
       (r.groupindex = [] ∧ 1 ≤ r.groups)) := by
  unfold validateRegex
  split_ifs with h1 h2 h3 h4 h5 <;>
    simp_all [List.all_eq_true, List.elem_iff] <;> try tauto
  all_goals omega

/-! ## Claims C7 and C10: month-name resolution -/

/-- C7: month-name resolution is a case-insensitive prefix lookup returning
the first month in calendar order whose full name starts with the input:
"Jan", "January" and every prefix between them (in any letter case) resolve
to the same month number 1; resolving the empty string fails in every cache
state; and, from the clean initial state, resolving a string that prefixes
no month name fails. -/
theorem month_resolution_prefix_lookup :
    (∀ p ∈ (["Jan", "Janu", "Janua", "Januar", "January", "JAN", "jan"] :
        List String),
      (month_from_str [] p).map Prod.fst = some 1) ∧
    (∀ cache : List (String × Nat), month_from_str cache "" = none) ∧
    (∀ mv : String, (∀ name ∈ MONTH_NAMES, startsWithPy name (pyLower mv) = false) →
      month_from_str [] mv = none) := by
  refine ⟨by decide, ?_, ?_⟩
  · intro cache
    simp [month_from_str]
  · intro mv h
    unfold month_from_str
    by_cases hmv : mv = ""
    · simp [hmv]
    · rw [if_neg hmv]
      have hl : ([] : List (String × Nat)).lookup (take9 mv) = none := rfl
      simp only [hl, List.findIdx?_eq_none_iff.mpr h]

/-- Witness for C7: "Jan" resolves to month 1, and "Xyz" (a non-prefix)
fails. -/
theorem month_resolution_prefix_lookup_witness :
    ("Jan" ∈ (["Jan", "Janu", "Janua", "Januar", "January", "JAN", "jan"] :
        List String) ∧
      (month_from_str [] "Jan").map Prod.fst = some 1) ∧
    ((∀ name ∈ MONTH_NAMES, startsWithPy name (pyLower "Xyz") = false) ∧
      month_from_str [] "Xyz" = none) :=
  ⟨⟨by decide, month_resolution_prefix_lookup.1 "Jan" (by decide)⟩,
   ⟨by decide, month_resolution_prefix_lookup.2.2 "Xyz" (by decide)⟩⟩

/-- C10: the memoizing cache is keyed by only the first nine characters of
the raw (un-lowercased) input and is consulted before any normalization:
once `mv` has resolved to a month, any later call whose argument shares the
first nine characters of `mv` returns the cached month, whatever its
remaining characters are. -/
theorem month_cache_keyed_by_first_nine_chars
    (cache : List (String × Nat)) (mv : String) (m : Nat)
    (cache2 : List (String × Nat))
    (h : month_from_str cache mv = some (m, cache2)) :
    ∀ mv2 : String, take9 mv2 = take9 mv →
      month_from_str cache2 mv2 = some (m, cache2) := by
  intro mv2 h9
  have hmv : mv ≠ "" := by
    intro hc
    rw [hc] at h
    simp [month_from_str] at h
  have hlook : cache2.lookup (take9 mv) = some m := by
    unfold month_from_str at h
    rw [if_neg hmv] at h
    cases hc : cache.lookup (take9 mv) with
    | some m0 =>
      simp only [hc, Option.some.injEq, Prod.mk.injEq] at h
      rw [← h.2, ← h.1]
      exact hc
    | none =>
      simp only [hc] at h
      cases hf : MONTH_NAMES.findIdx? (fun name => startsWithPy name (pyLower mv)) with
      | some idx =>
        simp only [hf, Option.some.injEq, Prod.mk.injEq] at h
        rw [← h.2, ← h.1]
        simp [List.lookup]
      | none =>
        simp only [hf] at h
        exact Option.noConfusion h
  have hmv2 : mv2 ≠ "" := by
    intro hc
    have hdata : mv2.data.take 9 = mv.data.take 9 := congrArg String.data h9
    rw [hc] at hdata
    have hnil : mv.data.take 9 = [] := hdata.symm
    rw [List.take_eq_nil_iff] at hnil
    rcases hnil with hnil | hnil
    · exact absurd hnil (by omega)
    · apply hmv
      cases mv
      simp only at hnil
      rw [hnil]
  unfold month_from_str
  rw [if_neg hmv2, h9, hlook]

/-- Witness for C10: "September" caches under its first nine characters,
after which "Septemberzzz" — which on its own prefixes no month name —
returns the cached month 9. -/
theorem month_cache_keyed_by_first_nine_chars_witness :
    month_from_str [] "September" = some (9, [("September", 9)]) ∧
    take9 "Septemberzzz" = take9 "September" ∧
    month_from_str [] "Septemberzzz" = none ∧
    month_from_str [("September", 9)] "Septemberzzz" = some (9, [("September", 9)]) :=
  ⟨by decide, by decide, by decide,
    month_cache_keyed_by_first_nine_chars [] "September" 9 [("September", 9)]
      (by decide) "Septemberzzz" (by decide)⟩

/-! ## Digit-string arithmetic for the resolver claims -/

theorem isDigit_not_space {c : Char} (h : c.isDigit = true) : isPySpace c = false := by
  by_cases h1 : c = ' '
  · rw [h1] at h
    exact absurd h (by decide)
  · by_cases h2 : c = '\t'
    · rw [h2] at h
      exact absurd h (by decide)
    · by_cases h3 : c = '\n'
      · rw [h3] at h
        exact absurd h (by decide)
      · by_cases h4 : c = '\r'
        · rw [h4] at h
          exact absurd h (by decide)
        · by_cases h5 : c = '\x0B'
          · rw [h5] at h
            exact absurd h (by decide)
          · by_cases h6 : c = '\x0C'
            · rw [h6] at h
              exact absurd h (by decide)
            · simp [isPySpace, h1, h2, h3, h4, h5, h6]

theorem dropWhile_space_of_digits {cs : List Char} (h : cs.all Char.isDigit = true) :
    cs.dropWhile isPySpace = cs := by
  cases cs with
  | nil => rfl
  | cons c r =>
    rw [List.dropWhile_cons]
    have hc : c.isDigit = true := (List.all_eq_true.mp h) c (List.mem_cons_self c r)
    rw [isDigit_not_space hc]
    simp

theorem asciiStrip_of_digits {s : String} (h : s.data.all Char.isDigit = true) :
    asciiStrip s = s := by
  unfold asciiStrip
  rw [dropWhile_space_of_digits h]
  rw [dropWhile_space_of_digits (by rw [List.all_reverse]; exact h)]
  rw [List.reverse_reverse]

theorem digitsVal_append_zeros (cs : List Char) (k : Nat) :
    digitsVal (cs ++ List.replicate k '0') = digitsVal cs * 10 ^ k := by
  unfold digitsVal
  rw [List.foldl_append]
  generalize (cs.foldl (fun a c => 10 * a + (c.toNat - '0'.toNat)) 0) = a
  induction k generalizing a with
  | zero => simp
  | succ n ih =>
    rw [List.replicate_succ, List.foldl_cons, ih]
    simp
    ring

theorem digit_ne_sign {c : Char} (h : c.isDigit = true) : c ≠ '-' ∧ c ≠ '+' := by
  constructor
  · intro hc
    rw [hc] at h
    exact absurd h (by decide)
  · intro hc
    rw [hc] at h
    exact absurd h (by decide)

theorem pyIntParse_digits {s : String} (hne : s.data ≠ [])
    (h : s.data.all Char.isDigit = true) :
    pyIntParse s = some ((digitsVal s.data : Int)) := by
  unfold pyIntParse
  rw [asciiStrip_of_digits h]
  cases hd : s.data with
  | nil => exact absurd hd hne
  | cons c rest =>
    rw [hd] at h
    have hc : c.isDigit = true := (List.all_eq_true.mp h) c (List.mem_cons_self c rest)
    obtain ⟨h1, h2⟩ := digit_ne_sign hc
    simp only [hd, h1, h2, if_false, h, if_true]

theorem ljust6_data (s : String) :
    (ljust6 s).data = s.data ++ List.replicate (6 - s.data.length) '0' := rfl

theorem ljust6_all_digits {s : String} (h : s.data.all Char.isDigit = true) :
    (ljust6 s).data.all Char.isDigit = true := by
  rw [ljust6_data, List.all_append, h]
  simp only [Bool.true_and]
  rw [List.all_eq_true]
  intro c hc
  rw [List.eq_of_mem_replicate hc]
  decide

/-! ## Inversion lemmas for the resolver -/

/-- A successfully constructed datetime carries the computed year and month,
and its microseconds come from the (defaulted, stripped, right-padded)
fractional-second capture. -/
theorem construct_ok_fields {gd : GroupDict} {mt : PyMatch} {filename : String}
    {year month : Int} {dt : DT}
    (h : construct_datetime gd mt filename year month = .ok (.localDT dt)) :
    dt.year = year ∧ dt.month = month ∧
    (match gd.f with
     | some v => pyIntParse (ljust6 (asciiStrip v))
     | none => some 0) = some dt.microsecond := by
  cases hdd : gd.d with
  | none => simp [construct_datetime, hdd] at h
  | some dv =>
    cases hday : pyIntParse dv with
    | none => simp [construct_datetime, hdd, hday] at h
    | some day =>
      cases hH : (match gd.H with | some v => pyIntParse v | none => some 0) with
      | none => simp [construct_datetime, hdd, hday, hH] at h
      | some hour =>
        cases hM : (match gd.M with | some v => pyIntParse v | none => some 0) with
        | none => simp [construct_datetime, hdd, hday, hH, hM] at h
        | some minute =>
          cases hS : (match gd.S with | some v => pyIntParse v | none => some 0) with
          | none => simp [construct_datetime, hdd, hday, hH, hM, hS] at h
          | some second =>
            cases hf : (match gd.f with
                | some v => pyIntParse (ljust6 (asciiStrip v))
                | none => some 0) with
            | none => simp [construct_datetime, hdd, hday, hH, hM, hS, hf] at h
            | some usec =>
              simp only [construct_datetime, hdd, hday, hH, hM, hS, hf] at h
              split at h
              · simp only [ResolveOutcome.ok.injEq, Resolved.localDT.injEq] at h
                rw [← h]
                exact ⟨rfl, rfl, rfl⟩
              · simp at h

/-- A successful year stage means the datetime was constructed with the
windowed, as-parsed, or defaulted year. -/
theorem resolve_year_ok {refYear : Int} {gd : GroupDict} {mt : PyMatch}
    {file : String} {month : Int} {x : ResolveOutcome}
    (h : resolve_year refYear gd mt file month = x)
    (hok : ∀ e, x ≠ .fatal e) :
    (∀ yv, gd.y = some yv → ∃ y0, pyIntParse yv = some y0 ∧
      construct_datetime gd mt file
        (if y0 < 100 then
          (if y0 ≤ YEAR_SPLIT refYear then y0 + 2000 else y0 + 1900)
        else y0) month = x) ∧
    (gd.y = none → construct_datetime gd mt file refYear month = x) := by
  constructor
  · intro yv hy
    cases hyp : pyIntParse yv with
    | none =>
      simp only [resolve_year, hy, hyp] at h
      exact absurd h.symm (hok _)
    | some y0 =>
      simp only [resolve_year, hy, hyp] at h
      exact ⟨y0, rfl, h⟩
  · intro hy
    simp only [resolve_year, hy] at h
    exact h

/-- A named-path resolution that produces a constructed datetime went
through the component path: `s` was absent and some month was obtained. -/
theorem resolver_ok_localDT {dparse : String → Option DT} {refYear : Int}
    {cache : List (String × Nat)} {gd : GroupDict}
    {pat line matched file : String} {dt : DT} {cache2 : List (String × Nat)}
    (h : datetime_from_match dparse refYear cache ⟨pat, line, matched, .named gd⟩ file =
      (.ok (.localDT dt), cache2)) :
    gd.s = none ∧ ∃ month : Int,
      resolve_year refYear gd ⟨pat, line, matched, .named gd⟩ file month =
        .ok (.localDT dt) := by
  cases hs : gd.s with
  | some sv =>
    simp only [datetime_from_match, hs] at h
    by_cases hfl : pyFloatOk sv
    · simp [hfl] at h
    · simp [hfl] at h
  | none =>
    refine ⟨rfl, ?_⟩
    cases hm : gd.m with
    | some mv =>
      cases hmp : pyIntParse mv with
      | some month =>
        simp only [datetime_from_match, hs, hm, hmp, Prod.mk.injEq] at h
        exact ⟨month, h.1⟩
      | none =>
        simp [datetime_from_match, hs, hm, hmp] at h
    | none =>
      cases hb : gd.b with
      | some bv =>
        cases hbm : month_from_str cache bv with
        | some mc =>
          obtain ⟨month, cache3⟩ := mc
          simp only [datetime_from_match, hs, hm, hb, hbm, Prod.mk.injEq] at h
          exact ⟨(month : Int), h.1⟩
        | none =>
          simp [datetime_from_match, hs, hm, hb, hbm] at h
      | none =>
        simp [datetime_from_match, hs, hm, hb] at h

/-! ## ASCII-letter captures: a sound certain-failure region for `int()`

`pyIntParse` models Python `int()` exactly on stripped signed ASCII digit
strings — the region every claim's success hypotheses live in — but its
`none` overshoots `int()`'s failures (Python also accepts underscore
grouping and non-ASCII digits and whitespace).  Claims about the printed
parse-failure fatals therefore hypothesise a capture containing an ASCII
letter: base-10 `int()` certainly raises `ValueError` on such a string,
and `pyIntParse` provably returns `none` on it. -/

theorem isDigit_toNat (c : Char) : c.isDigit = (48 ≤ c.toNat && c.toNat ≤ 57) := by
  simp [Char.isDigit, Char.le_def]
  rfl

theorem isAlpha_toNat (c : Char) :
    c.isAlpha = ((65 ≤ c.toNat && c.toNat ≤ 90) || (97 ≤ c.toNat && c.toNat ≤ 122)) := by
  simp [Char.isAlpha, Char.isUpper, Char.isLower, Char.le_def]
  rfl

theorem isPySpace_toNat (c : Char) :
    isPySpace c = (c.toNat = 32 || c.toNat = 9 || c.toNat = 10 || c.toNat = 13 ||
      c.toNat = 11 || c.toNat = 12) := by
  rw [Bool.eq_iff_iff]
  simp [isPySpace, Char.ext_iff, UInt32.ext_iff, Char.toNat, UInt32.size]

theorem isDigit_false_of_isAlpha {c : Char} (h : c.isAlpha = true) :
    c.isDigit = false := by
  rw [isAlpha_toNat] at h
  rw [isDigit_toNat]
  simp at h ⊢
  omega

theorem isPySpace_false_of_isAlpha {c : Char} (h : c.isAlpha = true) :
    isPySpace c = false := by
  rw [isAlpha_toNat] at h
  rw [isPySpace_toNat]
  simp at h ⊢
  omega

theorem ne_of_isAlpha_of_not {c d : Char} (h : c.isAlpha = true)
    (hd : d.isAlpha = false) : c ≠ d := by
  intro hx
  rw [hx, hd] at h
  cases h

theorem mem_dropWhile_of_neg {p : Char → Bool} {c : Char} {l : List Char}
    (hc : c ∈ l) (hp : p c = false) : c ∈ l.dropWhile p := by
  have h2 : c ∈ l.takeWhile p ++ l.dropWhile p := by
    rw [List.takeWhile_append_dropWhile]
    exact hc
  rcases List.mem_append.mp h2 with h3 | h3
  · have h4 := List.mem_takeWhile_imp h3
    rw [hp] at h4
    cases h4
  · exact h3

/-- A string containing an ASCII letter survives stripping with the letter
still inside. -/
theorem mem_asciiStrip_of_alpha {s : String} {c : Char} (hc : c ∈ s.data)
    (ha : c.isAlpha = true) : c ∈ (asciiStrip s).data := by
  have hp : isPySpace c = false := isPySpace_false_of_isAlpha ha
  show c ∈ ((s.data.dropWhile isPySpace).reverse.dropWhile isPySpace).reverse
  rw [List.mem_reverse]
  exact mem_dropWhile_of_neg (List.mem_reverse.mpr (mem_dropWhile_of_neg hc hp)) hp

/-- A capture containing an ASCII letter fails `pyIntParse` — and base-10
`int()` raises `ValueError` on it, so here model and program agree on
failure. -/
theorem pyIntParse_none_of_alpha {s : String}
    (h : s.data.any Char.isAlpha = true) : pyIntParse s = none := by
  obtain ⟨c, hc, ha⟩ := List.any_eq_true.mp h
  have hmem : c ∈ (asciiStrip s).data := mem_asciiStrip_of_alpha hc ha
  have hnd : c.isDigit = false := isDigit_false_of_isAlpha ha
  have hall : ∀ l : List Char, c ∈ l → l.all Char.isDigit = false := by
    intro l hl
    cases hA : l.all Char.isDigit
    · rfl
    · have h5 := List.all_eq_true.mp hA c hl
      rw [hnd] at h5
      cases h5
  unfold pyIntParse
  cases hd : (asciiStrip s).data with
  | nil =>
    rw [hd] at hmem
  | cons c0 rest =>
    rw [hd] at hmem
    simp only
    by_cases h0 : c0 = '-'
    · have hcr : c ∈ rest := by
        rcases List.mem_cons.mp hmem with he | hr
        · rw [he, h0] at ha
          cases ha
        · exact hr
      rw [if_pos h0, hall rest hcr]
      simp
    · rw [if_neg h0]
      by_cases h1 : c0 = '+'
      · have hcr : c ∈ rest := by
          rcases List.mem_cons.mp hmem with he | hr
          · rw [he, h1] at ha
            cases ha
          · exact hr
        rw [if_pos h1, hall rest hcr]
        simp
      · rw [if_neg h1, hall (c0 :: rest) hmem]
        simp

/-! ## The epoch branch, refined

The `try` on source lines 39-43 wraps both `float(vals['s'])` and
`datetime.datetime.fromtimestamp(...)`: a `ValueError` from either — an
unparseable string, NaN, or a timestamp whose year falls outside
`datetime`'s range — is caught and printed as the invalid-unix-timestamp
fatal, while an `OverflowError` from `fromtimestamp` (an infinite or
too-large value) escapes the `except ValueError` clause uncaught.
`datetime_from_match` simplifies this branch; the claims about it are
stated over the refinement below, which models the library call's
outcome by an oracle the way `dparse` models `dateutil.parser.parse`. -/

/-- Outcome of `datetime.datetime.fromtimestamp(float(text), tz=utc)`
(source line 40). -/
inductive EpochResult where
  | instant
  | valueError
  | overflowError
deriving DecidableEq, Repr

/-- `datetime_from_match` (source lines 35-93) with the epoch branch
modelled faithfully through the `fromts` oracle; off the epoch branch —
where the simplification plays no part — it is `datetime_from_match`
unchanged. -/
def datetime_from_match_fromts (fromts : String → EpochResult)
    (dparse : String → Option DT) (refYear : Int)
    (cache : List (String × Nat)) (mt : PyMatch) (filename : String) :
    ResolveOutcome × List (String × Nat) :=
  match mt.groups with
  | .named gd =>
    match gd.s with
    | some sv =>
      ((match fromts sv with
        | .instant => .ok (.epochUTC sv)
        | .valueError => .fatal (.invalidUnixTimestamp sv mt.pattern filename mt.string)
        | .overflowError => .crash "OverflowError"), cache)
    | none => datetime_from_match dparse refYear cache mt filename
  | .positional _ => datetime_from_match dparse refYear cache mt filename

/-! ## Claim C5: epoch path precedence -/

/-- C5: when the match carries an `s` capture, the resolver uses only
that capture: the outcome is a closed function of the `s` text alone
(with the pattern, file and line appearing only in the diagnostic) — the
corresponding epoch-UTC instant when `float` and `fromtimestamp` succeed,
the printed invalid-unix-timestamp fatal when either raises `ValueError`,
the uncaught `OverflowError` otherwise — independent of every other
component value in the group dict, of the reference year, of the
raw-string parser, and of the month cache (which is returned
unchanged). -/
theorem epoch_path_precedence (fromts : String → EpochResult)
    (dparse : String → Option DT) (refYear : Int)
    (cache : List (String × Nat)) (gd : GroupDict)
    (pat line matched file sv : String) (hs : gd.s = some sv) :
    datetime_from_match_fromts fromts dparse refYear cache
        ⟨pat, line, matched, .named gd⟩ file =
      ((match fromts sv with
        | .instant => .ok (.epochUTC sv)
        | .valueError => .fatal (.invalidUnixTimestamp sv pat file line)
        | .overflowError => .crash "OverflowError"), cache) := by
  simp only [datetime_from_match_fromts, hs]

/-- C5 witness: a group dict carrying `s = "12.5"` together with values
for every other component resolves to the epoch instant for `"12.5"`
when the conversion succeeds, and to the fatal carrying exactly the
capture, pattern, file and line when it raises `ValueError`. -/
theorem epoch_path_precedence_witness :
    (⟨some "12.5", some "99", some "13", some "zzz", some "99", some "99",
      some "99", some "99", some "99"⟩ : GroupDict).s = some "12.5" ∧
    datetime_from_match_fromts (fun _ => EpochResult.instant) (fun _ => none) 2025 []
      ⟨"p", "L", "M", .named ⟨some "12.5", some "99", some "13", some "zzz",
        some "99", some "99", some "99", some "99", some "99"⟩⟩ "f" =
      (.ok (.epochUTC "12.5"), []) ∧
    datetime_from_match_fromts (fun _ => EpochResult.valueError) (fun _ => none) 2025 []
      ⟨"p", "L", "M", .named ⟨some "12.5", some "99", some "13", some "zzz",
        some "99", some "99", some "99", some "99", some "99"⟩⟩ "f" =
      (.fatal (.invalidUnixTimestamp "12.5" "p" "f" "L"), []) := by
  refine ⟨rfl, ?_, ?_⟩
  · rw [epoch_path_precedence (fun _ => EpochResult.instant) (fun _ => none) 2025 []
      _ "p" "L" "M" "f" "12.5" rfl]
  · rw [epoch_path_precedence (fun _ => EpochResult.valueError) (fun _ => none) 2025 []
      _ "p" "L" "M" "f" "12.5" rfl]

/-! ## Claim C4: two-digit year windowing -/

/-- C4: whenever the named path resolves a match to a constructed
datetime, a year capture parsing to y < 100 is windowed to 2000+y when
y ≤ YEAR_SPLIT (the reference year's last two digits plus ten) and to
1900+y otherwise; a year of 100 or more is used as parsed; an absent
year capture defaults to the reference year. -/
theorem resolver_two_digit_year_windowing (dparse : String → Option DT)
    (refYear : Int) (cache cache2 : List (String × Nat)) (gd : GroupDict)
    (pat line matched file : String) (dt : DT)
    (h : datetime_from_match dparse refYear cache ⟨pat, line, matched, .named gd⟩ file
           = (.ok (.localDT dt), cache2)) :
    (∀ yv y, gd.y = some yv → pyIntParse yv = some y →
       dt.year = if y < 100 then
           (if y ≤ YEAR_SPLIT refYear then y + 2000 else y + 1900)
         else y) ∧
    (gd.y = none → dt.year = refYear) := by
  obtain ⟨hs, month, hry⟩ := resolver_ok_localDT h
  have hok : ∀ e, (ResolveOutcome.ok (Resolved.localDT dt)) ≠ .fatal e := by
    intro e hc
    exact ResolveOutcome.noConfusion hc
  obtain ⟨h1, h2⟩ := resolve_year_ok hry hok
  constructor
  · intro yv y hy hyp
    obtain ⟨y0, hy0, hc⟩ := h1 yv hy
    rw [hyp] at hy0
    injection hy0 with hy0
    subst hy0
    exact (construct_ok_fields hc).1
  · intro hy
    exact (construct_ok_fields (h2 hy)).1

/-- C4 witness: at reference year 2025 (YEAR_SPLIT 35), the capture "31"
resolves to year 2031 and the capture "97" to year 1997. -/
theorem resolver_two_digit_year_windowing_witness :
    ((⟨2031, 1, 1, 0, 0, 0, 0⟩ : DT).year =
      if (31 : Int) < 100 then
        (if (31 : Int) ≤ YEAR_SPLIT 2025 then 31 + 2000 else 31 + 1900)
      else 31) ∧
    ((⟨1997, 1, 1, 0, 0, 0, 0⟩ : DT).year =
      if (97 : Int) < 100 then
        (if (97 : Int) ≤ YEAR_SPLIT 2025 then 97 + 2000 else 97 + 1900)
      else 97) := by
  constructor
  · exact (resolver_two_digit_year_windowing (fun _ => none) 2025 [] []
      ⟨none, some "31", some "1", none, some "1", none, none, none, none⟩
      "p" "L" "M" "f" ⟨2031, 1, 1, 0, 0, 0, 0⟩ (by decide)).1 "31" 31 rfl (by decide)
  · exact (resolver_two_digit_year_windowing (fun _ => none) 2025 [] []
      ⟨none, some "97", some "1", none, some "1", none, none, none, none⟩
      "p" "L" "M" "f" ⟨1997, 1, 1, 0, 0, 0, 0⟩ (by decide)).1 "97" 97 rfl (by decide)

/-! ## Claim C6: fractional-second right padding -/

/-- C6: whenever the named path resolves a match to a constructed
datetime, a fractional-second capture of 1 to 6 digits is right-padded
with zeros to 6 digits, so the microsecond field equals the capture's
digit value scaled by 10^(6 - number of digits); an absent capture gives
microsecond 0. -/
theorem fractional_second_right_padding (dparse : String → Option DT)
    (refYear : Int) (cache cache2 : List (String × Nat)) (gd : GroupDict)
    (pat line matched file : String) (dt : DT)
    (h : datetime_from_match dparse refYear cache ⟨pat, line, matched, .named gd⟩ file
           = (.ok (.localDT dt), cache2)) :
    (∀ fv, gd.f = some fv → fv.data ≠ [] → fv.data.all Char.isDigit = true →
       fv.data.length ≤ 6 →
       dt.microsecond = (digitsVal fv.data : Int) * 10 ^ (6 - fv.data.length)) ∧
    (gd.f = none → dt.microsecond = 0) := by
  obtain ⟨hs, month, hry⟩ := resolver_ok_localDT h
  have hok : ∀ e, (ResolveOutcome.ok (Resolved.localDT dt)) ≠ .fatal e := by
    intro e hc
    exact ResolveOutcome.noConfusion hc
  obtain ⟨h1, h2⟩ := resolve_year_ok hry hok
  have hcon : ∃ Y, construct_datetime gd ⟨pat, line, matched, .named gd⟩ file Y month =
      .ok (.localDT dt) := by
    cases hy : gd.y with
    | none => exact ⟨refYear, h2 hy⟩
    | some yv =>
      obtain ⟨y0, _, hc⟩ := h1 yv hy
      exact ⟨_, hc⟩
  obtain ⟨Y, hc⟩ := hcon
  have hf3 := (construct_ok_fields hc).2.2
  constructor
  · intro fv hfv hne hdig _
    simp only [hfv] at hf3
    rw [asciiStrip_of_digits hdig] at hf3
    have hne2 : (ljust6 fv).data ≠ [] := by
      rw [ljust6_data]
      intro hx
      exact hne (List.append_eq_nil.mp hx).1
    rw [pyIntParse_digits hne2 (ljust6_all_digits hdig)] at hf3
    rw [ljust6_data, digitsVal_append_zeros] at hf3
    injection hf3 with hf3
    rw [← hf3]
    push_cast
    ring
  · intro hfv
    simp only [hfv] at hf3
    injection hf3 with hf3
    exact hf3.symm

/-- C6 witness: the capture "5" yields 500000 microseconds, and so does
the capture "500000" (same constructed datetime). -/
theorem fractional_second_right_padding_witness :
    ("5".data ≠ [] ∧ "5".data.all Char.isDigit = true ∧ "5".data.length ≤ 6) ∧
    (⟨2025, 1, 1, 0, 0, 0, 500000⟩ : DT).microsecond =
      (digitsVal "5".data : Int) * 10 ^ (6 - "5".data.length) ∧
    (⟨2025, 1, 1, 0, 0, 0, 500000⟩ : DT).microsecond =
      (digitsVal "500000".data : Int) * 10 ^ (6 - "500000".data.length) := by
  refine ⟨⟨by decide, by decide, by decide⟩, ?_, ?_⟩
  · exact (fractional_second_right_padding (fun _ => none) 2025 [] []
      ⟨none, none, some "1", none, some "1", none, none, none, some "5"⟩
      "p" "L" "M" "f" ⟨2025, 1, 1, 0, 0, 0, 500000⟩ (by decide)).1 "5" rfl
      (by decide) (by decide) (by decide)
  · exact (fractional_second_right_padding (fun _ => none) 2025 [] []
      ⟨none, none, some "1", none, some "1", none, none, none, some "500000"⟩
      "p" "L" "M" "f" ⟨2025, 1, 1, 0, 0, 0, 500000⟩ (by decide)).1 "500000" rfl
      (by decide) (by decide) (by decide)

/-! ## Claim C8: parse failures and their diagnostics -/

/-- C8 (counterexample to the claim as stated): the date-construction
failure (source line 82) prints `match.group()` — the matched text — the
pattern and the file, but not the line (`match.string`): two lines that
differ only in their full text produce bit-identical diagnostics, so the
diagnostic does not identify the line. -/
theorem date_values_error_omits_line :
    datetime_from_match (fun _ => none) 2025 []
      ⟨"p", "LINE-A", "M",
        .named ⟨none, none, some "1", none, some "x", none, none, none, none⟩⟩ "f" =
    datetime_from_match (fun _ => none) 2025 []
      ⟨"p", "LINE-B", "M",
        .named ⟨none, none, some "1", none, some "x", none, none, none, none⟩⟩ "f" ∧
    (datetime_from_match (fun _ => none) 2025 []
      ⟨"p", "LINE-A", "M",
        .named ⟨none, none, some "1", none, some "x", none, none, none, none⟩⟩ "f").1 =
      .fatal (.invalidDateValues "M" "p" "f") := by
  exact ⟨by decide, by decide⟩

/-- C8 (amended): every modelled parse failure surfaces as a printed
fatal error, never by silently skipping the line — but not always with a
line-identifying diagnostic, and not always as a printed error at all.
On the epoch path, a `ValueError` (unparseable text, NaN, or an
out-of-range timestamp) is caught and printed as the
invalid-unix-timestamp fatal carrying the value, pattern, file and line,
while an overflowing value raises an `OverflowError` the
`except ValueError` clause does not catch — an unreported exception.
On the component path, a month, year or day capture containing an ASCII
letter (a string base-10 `int()` certainly rejects) and a month string
prefixing no month name each produce their printed fatal; the
integer-month, month-string and integer-year fatals carry the value,
pattern, file and line, whereas the date-construction fatal carries the
matched text, pattern and file but not the line.  On the positional
path, an empty capture and a string the date parser rejects produce
fatals carrying the pattern, file and line. -/
theorem parse_failures_fatal_with_diagnostics (fromts : String → EpochResult)
    (dparse : String → Option DT) (refYear : Int) (cache : List (String × Nat))
    (pat line matched file : String) :
    (∀ gd : GroupDict, ∀ sv, gd.s = some sv → fromts sv = .valueError →
      datetime_from_match_fromts fromts dparse refYear cache
          ⟨pat, line, matched, .named gd⟩ file =
        (.fatal (.invalidUnixTimestamp sv pat file line), cache)) ∧
    (∀ gd : GroupDict, ∀ sv, gd.s = some sv → fromts sv = .overflowError →
      datetime_from_match_fromts fromts dparse refYear cache
          ⟨pat, line, matched, .named gd⟩ file =
        (.crash "OverflowError", cache)) ∧
    (∀ gd : GroupDict, ∀ mv, gd.s = none → gd.m = some mv →
      mv.data.any Char.isAlpha = true →
      datetime_from_match_fromts fromts dparse refYear cache
          ⟨pat, line, matched, .named gd⟩ file =
        (.fatal (.invalidIntMonth mv pat file line), cache)) ∧
    (∀ gd : GroupDict, ∀ bv, gd.s = none → gd.m = none → gd.b = some bv →
      month_from_str cache bv = none →
      datetime_from_match_fromts fromts dparse refYear cache
          ⟨pat, line, matched, .named gd⟩ file =
        (.fatal (.invalidMonthString bv pat file line), cache)) ∧
    (∀ gd : GroupDict, ∀ mv month yv, gd.s = none → gd.m = some mv →
      pyIntParse mv = some month → gd.y = some yv →
      yv.data.any Char.isAlpha = true →
      datetime_from_match_fromts fromts dparse refYear cache
          ⟨pat, line, matched, .named gd⟩ file =
        (.fatal (.invalidIntYear yv pat file line), cache)) ∧
    (∀ gd : GroupDict, ∀ mv month dv, gd.s = none → gd.m = some mv →
      pyIntParse mv = some month → gd.y = none → gd.d = some dv →
      dv.data.any Char.isAlpha = true →
      datetime_from_match_fromts fromts dparse refYear cache
          ⟨pat, line, matched, .named gd⟩ file =
        (.fatal (.invalidDateValues matched pat file), cache)) ∧
    (datetime_from_match_fromts fromts dparse refYear cache
        ⟨pat, line, matched, .positional ""⟩ file =
      (.fatal (.emptyCapture pat file line), cache)) ∧
    (∀ g1, g1 ≠ "" → dparse g1 = none →
      datetime_from_match_fromts fromts dparse refYear cache
          ⟨pat, line, matched, .positional g1⟩ file =
        (.fatal (.invalidDateString g1 pat file line), cache)) := by
  refine ⟨?_, ?_, ?_, ?_, ?_, ?_, ?_, ?_⟩
  · intro gd sv hs hfe
    simp only [datetime_from_match_fromts, hs, hfe]
  · intro gd sv hs hfe
    simp only [datetime_from_match_fromts, hs, hfe]
  · intro gd mv hs hm halpha
    have hmp := pyIntParse_none_of_alpha halpha
    simp [datetime_from_match_fromts, datetime_from_match, hs, hm, hmp]
  · intro gd bv hs hm hb hbm
    simp [datetime_from_match_fromts, datetime_from_match, hs, hm, hb, hbm]
  · intro gd mv month yv hs hm hmp hy halpha
    have hyp := pyIntParse_none_of_alpha halpha
    simp [datetime_from_match_fromts, datetime_from_match, hs, hm, hmp,
      resolve_year, hy, hyp]
  · intro gd mv month dv hs hm hmp hy hd halpha
    have hdp := pyIntParse_none_of_alpha halpha
    simp only [datetime_from_match_fromts, datetime_from_match, hs, hm, hmp,
      resolve_year, hy, construct_datetime, hd, hdp]
  · simp [datetime_from_match_fromts, datetime_from_match]
  · intro g1 hg hdp
    simp [datetime_from_match_fromts, datetime_from_match, hg, hdp]

/-- C8 witness: an `s` capture whose value overflows `fromtimestamp`
raises the uncaught `OverflowError`, and a month capture "xx" yields the
invalid-integer-month fatal carrying the value, pattern, file and
line. -/
theorem parse_failures_fatal_with_diagnostics_witness :
    datetime_from_match_fromts (fun _ => EpochResult.overflowError) (fun _ => none)
      2025 [] ⟨"p", "L", "M",
        .named ⟨some "1e30", none, none, none, none, none, none, none, none⟩⟩ "f" =
      (.crash "OverflowError", []) ∧
    datetime_from_match_fromts (fun _ => EpochResult.instant) (fun _ => none)
      2025 [] ⟨"p", "L", "M",
        .named ⟨none, none, some "xx", none, some "1", none, none, none, none⟩⟩ "f" =
      (.fatal (.invalidIntMonth "xx" "p" "f" "L"), []) := by
  constructor
  · exact (parse_failures_fatal_with_diagnostics (fun _ => EpochResult.overflowError)
      (fun _ => none) 2025 [] "p" "L" "M" "f").2.1
      ⟨some "1e30", none, none, none, none, none, none, none, none⟩ "1e30" rfl rfl
  · exact (parse_failures_fatal_with_diagnostics (fun _ => EpochResult.instant)
      (fun _ => none) 2025 [] "p" "L" "M" "f").2.2.1
      ⟨none, none, some "xx", none, some "1", none, none, none, none⟩ "xx" rfl rfl
      (by decide)
